import Mathlib

/-!
Verification development for the FlyDB storage engine.

The Go source is shallowly embedded: byte sequences are modelled as
`List Char` (the content relevant to the claims is ASCII / valid UTF-8,
where Go's byte-wise and rune-wise traversals agree), Go `int64` values
as `Int`, fallible functions as `Except`.  The gzip library
(`compress/gzip`) is external to the repository and is modelled as an
abstract codec (`GzipModel`) together with the laws the engine relies
on (`LawfulGzip`); a concrete executable instance (`unitGzip`) is
provided for evaluating closed scenarios.  Go's `float64` values are
modelled by the accepted source literal: no claim depends on
identifying two literals of equal numeric value, and the one numeric
fact the code observes about a literal — whether `strconv.ParseFloat`
reports a range error — is modelled exactly, by comparing the literal's
exact value against the binary64 rounding threshold to infinity
(`goParseFloatOk`).
-/

namespace FlyDB

/-- The first byte of the gzip magic number, 0x1F. -/
def gzByte1 : Char := Char.ofNat 0x1f

/-- The second byte of the gzip magic number, 0x8B. -/
def gzByte2 : Char := Char.ofNat 0x8b

/-- A record value: signed 64-bit integer, 64-bit float (kept as its
source literal, see the file comment), boolean, or text.  This is the
data model of spec section 3. -/
inductive Value where
  | vInt (i : Int)
  | vFloat (lit : String)
  | vBool (b : Bool)
  | vText (s : String)
deriving DecidableEq, Repr

instance {ε α : Type} [DecidableEq ε] [DecidableEq α] : DecidableEq (Except ε α)
  | .error e1, .error e2 =>
    if h : e1 = e2 then .isTrue (by rw [h])
    else .isFalse (by intro hh; cases hh; exact h rfl)
  | .error _, .ok _ => .isFalse (by intro hh; cases hh)
  | .ok _, .error _ => .isFalse (by intro hh; cases hh)
  | .ok a1, .ok a2 =>
    if h : a1 = a2 then .isTrue (by rw [h])
    else .isFalse (by intro hh; cases hh; exact h rfl)

/-- A record (Go `toon.Document`, `map[string]interface{}`): modelled as
an association list; lookup takes the first binding, mirroring a map in
which keys are unique. -/
abbrev Document := List (String × Value)

/-- Map lookup `doc[k]`. -/
def docGet (d : Document) (k : String) : Option Value :=
  (d.find? (fun p => p.1 == k)).map (fun p => p.2)

/-- Map store `doc[k] = v`: replaces the binding if present, else appends. -/
def docSet (d : Document) (k : String) (v : Value) : Document :=
  if d.any (fun p => p.1 == k) then
    d.map (fun p => if p.1 == k then (k, v) else p)
  else d ++ [(k, v)]

/-- Decimal digits of a natural number, most significant first; fuel-based
so that it is structural (fuel `n+1` always suffices). -/
def natToCharsAux : Nat → Nat → List Char
  | 0, _ => []
  | fuel + 1, n =>
    if n = 0 then []
    else natToCharsAux fuel (n / 10) ++ [Char.ofNat (48 + n % 10)]

/-- Go `%d` rendering of a non-negative integer. -/
def natToChars (n : Nat) : List Char :=
  if n = 0 then ['0'] else natToCharsAux (n + 1) n

/-- Go `%d` rendering of an `int64`. -/
def intToChars (i : Int) : List Char :=
  if i < 0 then '-' :: natToChars i.natAbs else natToChars i.toNat

/-- Go `fmt.Sprint` of a record value (`%v`).  Text passes through,
integers render in decimal, booleans as `true`/`false`; a float renders
as its literal (implementation-defined formatting, see file comment). -/
def renderValue : Value → String
  | .vInt i => String.mk (intToChars i)
  | .vFloat lit => lit
  | .vBool b => if b then "true" else "false"
  | .vText s => s

/-- Go `fmt.Sprint(doc[k])` where a missing key yields the `nil`
interface, which `fmt.Sprint` renders as the text below. -/
def renderOpt : Option Value → String
  | none => "<nil>"
  | some v => renderValue v

/-- The value of a digit run (base 10); `none` if a non-digit occurs. -/
def decDigitsVal (l : List Char) : Option Nat :=
  l.foldl
    (fun acc c =>
      match acc with
      | none => none
      | some n => if c.isDigit then some (n * 10 + (c.toNat - 48)) else none)
    (some 0)

/-- Go `strconv.ParseInt(s, 10, 64)` (also `strconv.Atoi` on a 64-bit
platform): optional sign, one or more decimal digits, no underscores,
result within the signed 64-bit range. -/
def goParseInt (s : String) : Option Int :=
  let p : Bool × List Char :=
    match s.data with
    | [] => (false, [])
    | c :: rest =>
      if c = '-' then (true, rest)
      else if c = '+' then (false, rest)
      else (false, c :: rest)
  if p.2.isEmpty then none
  else
    match decDigitsVal p.2 with
    | none => none
    | some n =>
      if p.1 then if n ≤ 2 ^ 63 then some (-(n : Int)) else none
      else if n < 2 ^ 63 then some (n : Int) else none

/-- Hexadecimal digit test (Go `lower(c)` comparisons in `strconv`). -/
def isHexDigitChar (c : Char) : Bool :=
  c.isDigit || ('a' ≤ c && c ≤ 'f') || ('A' ≤ c && c ≤ 'F')

/-- State of Go `strconv`'s underscore-placement automaton. -/
inductive USaw where
  | start
  | digit
  | under
  | other
deriving DecidableEq

/-- Loop of Go `strconv.underscoreOK`: an underscore may appear only
immediately after a digit (or the base prefix) and immediately before a
digit. -/
def underscoreOKLoop (hex : Bool) : List Char → USaw → Bool
  | [], saw => !(saw == USaw.under)
  | c :: rest, saw =>
    if (if hex then isHexDigitChar c else c.isDigit) then
      underscoreOKLoop hex rest USaw.digit
    else if c = '_' then
      if saw == USaw.digit then underscoreOKLoop hex rest USaw.under else false
    else if saw == USaw.under then false
    else underscoreOKLoop hex rest USaw.other

/-- Go `strconv.underscoreOK` over a full literal (sign and optional
`0x`/`0X` prefix handled as in the source). -/
def underscoreOK (l : List Char) : Bool :=
  let l1 : List Char :=
    match l with
    | c :: rest => if c = '+' || c = '-' then rest else c :: rest
    | [] => []
  match l1 with
  | '0' :: x :: rest =>
    if x = 'x' || x = 'X' then underscoreOKLoop true rest USaw.digit
    else underscoreOKLoop false (('0' : Char) :: x :: rest) USaw.start
  | l2 => underscoreOKLoop false l2 USaw.start

/-- Case-insensitive equality of character lists (Go
`commonPrefixLenIgnoreCase` used on the full string). -/
def ciEq (a b : List Char) : Bool :=
  a.map Char.toLower == b.map Char.toLower

/-- Accepts `inf` and `infinity`, case-insensitively. -/
def infWord (l : List Char) : Bool :=
  ciEq l ['i', 'n', 'f'] || ciEq l ['i', 'n', 'f', 'i', 'n', 'i', 't', 'y']

/-- Go `strconv`'s `special`: `[sign](inf|infinity)` or unsigned `nan`,
case-insensitive. -/
def specialFloat (l : List Char) : Bool :=
  match l with
  | '+' :: r => infWord r
  | '-' :: r => infWord r
  | _ => infWord l || ciEq l ['n', 'a', 'n']

/-- Decimal float body (sign and underscores already stripped):
`digits [. digits] [(e|E) [sign] digits]` with at least one mantissa
digit. -/
def decFloatSyntax (l : List Char) : Bool :=
  let m1 := l.takeWhile Char.isDigit
  let r1 := l.dropWhile Char.isDigit
  let p : List Char × List Char :=
    match r1 with
    | '.' :: rest => (rest.takeWhile Char.isDigit, rest.dropWhile Char.isDigit)
    | _ => ([], r1)
  if m1.isEmpty && p.1.isEmpty then false
  else
    match p.2 with
    | [] => true
    | e :: rest =>
      if e = 'e' || e = 'E' then
        let rest2 : List Char :=
          match rest with
          | c :: t => if c = '+' || c = '-' then t else c :: t
          | [] => []
        !rest2.isEmpty && rest2.all Char.isDigit
      else false

/-- Hexadecimal float body (sign and underscores already stripped):
`0x hexdigits [. hexdigits] (p|P) [sign] digits`; the binary exponent is
mandatory. -/
def hexFloatSyntax (l : List Char) : Bool :=
  match l with
  | '0' :: x :: rest =>
    if x = 'x' || x = 'X' then
      let m1 := rest.takeWhile isHexDigitChar
      let r1 := rest.dropWhile isHexDigitChar
      let p : List Char × List Char :=
        match r1 with
        | '.' :: r => (r.takeWhile isHexDigitChar, r.dropWhile isHexDigitChar)
        | _ => ([], r1)
      if m1.isEmpty && p.1.isEmpty then false
      else
        match p.2 with
        | e :: r =>
          if e = 'p' || e = 'P' then
            let r2 : List Char :=
              match r with
              | c :: t => if c = '+' || c = '-' then t else c :: t
              | [] => []
            !r2.isEmpty && r2.all Char.isDigit
          else false
        | [] => false
    else false
  | _ => false

/-- Syntactic acceptance of Go `strconv.ParseFloat(s, 64)` (the shape
`strconv.readFloat` and `strconv.special` recognise).  The range error
of the conversion is modelled separately by `goParseFloatOk`. -/
def goParseFloatAccepts (s : String) : Bool :=
  let l := s.data
  if specialFloat l then true
  else
    let core : List Char :=
      match l with
      | c :: rest => if c = '+' || c = '-' then rest else c :: rest
      | [] => []
    (if core.contains '_' then underscoreOK l else true) &&
      (let m := core.filter (fun c => !(c == '_'))
       decFloatSyntax m || hexFloatSyntax m)

/-- Value of one hexadecimal digit. -/
def hexDigitVal (c : Char) : Nat :=
  if 97 ≤ c.toNat then c.toNat - 87
  else if 65 ≤ c.toNat then c.toNat - 55
  else c.toNat - 48

/-- Value of a hexadecimal digit run, most significant first. -/
def hexDigitsVal (l : List Char) : Nat :=
  l.foldl (fun acc c => acc * 16 + hexDigitVal c) 0

/-- The overflow threshold of IEEE 754 binary64 under round-to-nearest,
ties-to-even: the midpoint `2 ^ 1024 - 2 ^ 970` between the largest
finite `float64` and `2 ^ 1024`.  A literal of magnitude at least this
value rounds to infinity, which `strconv.ParseFloat` reports as
`ErrRange`; a smaller one rounds to a finite number.  (Underflow rounds
to zero or a denormal without an error, per `decimal.floatBits` and
`atofHex`.) -/
def floatOverflowBound : Nat := (2 ^ 54 - 1) * 2 ^ 970

/-- Mantissa and decimal exponent of a decimal float body (sign and
underscores already stripped): the literal's exact value is
`mantissa * 10 ^ exponent`. -/
def decFloatParts (m : List Char) : Nat × Int :=
  let intD := m.takeWhile Char.isDigit
  let r1 := m.dropWhile Char.isDigit
  let fracD : List Char :=
    match r1 with
    | '.' :: rest => rest.takeWhile Char.isDigit
    | _ => []
  let r2 : List Char :=
    match r1 with
    | '.' :: rest => rest.dropWhile Char.isDigit
    | _ => r1
  let eVal : Int :=
    match r2 with
    | _ :: rest =>
      match rest with
      | '+' :: t => ((decDigitsVal t).getD 0 : Int)
      | '-' :: t => -(((decDigitsVal t).getD 0 : Nat) : Int)
      | t => ((decDigitsVal t).getD 0 : Int)
    | [] => 0
  ((decDigitsVal (intD ++ fracD)).getD 0, eVal - fracD.length)

/-- Mantissa and binary exponent of a hexadecimal float body
(`0x` form, sign and underscores already stripped): the literal's exact
value is `mantissa * 2 ^ exponent`. -/
def hexFloatParts (m : List Char) : Nat × Int :=
  match m with
  | _ :: _ :: rest =>
    let intD := rest.takeWhile isHexDigitChar
    let r1 := rest.dropWhile isHexDigitChar
    let fracD : List Char :=
      match r1 with
      | '.' :: r => r.takeWhile isHexDigitChar
      | _ => []
    let r2 : List Char :=
      match r1 with
      | '.' :: r => r.dropWhile isHexDigitChar
      | _ => r1
    let eVal : Int :=
      match r2 with
      | _ :: rest2 =>
        match rest2 with
        | '+' :: t => ((decDigitsVal t).getD 0 : Int)
        | '-' :: t => -(((decDigitsVal t).getD 0 : Nat) : Int)
        | t => ((decDigitsVal t).getD 0 : Int)
      | [] => 0
    (hexDigitsVal (intD ++ fracD), eVal - 4 * fracD.length)
  | _ => (0, 0)

/-- Whether an accepted (non-special) float body's exact value rounds to
infinity, i.e. whether `strconv.ParseFloat` raises `ErrRange` for it:
the magnitude reaches `floatOverflowBound`. -/
def floatValueOverflows (m : List Char) : Bool :=
  let hex := hexFloatSyntax m
  let q : Nat × Int := if hex then hexFloatParts m else decFloatParts m
  let base : Nat := if hex then 2 else 10
  if 0 ≤ q.2 then floatOverflowBound ≤ q.1 * base ^ q.2.toNat
  else floatOverflowBound * base ^ (-q.2).toNat ≤ q.1

/-- The sign- and underscore-stripped body of a float literal. -/
def floatCoreDigits (s : String) : List Char :=
  let core : List Char :=
    match s.data with
    | c :: rest => if c = '+' || c = '-' then rest else c :: rest
    | [] => []
  core.filter (fun c => !(c == '_'))

/-- Go `strconv.ParseFloat(s, 64)` succeeding (`err == nil`): the
literal is syntactically accepted and, unless it is one of the
`inf`/`infinity`/`nan` spellings, its exact value does not round to
infinity (`ErrRange`). -/
def goParseFloatOk (s : String) : Bool :=
  if specialFloat s.data then true
  else goParseFloatAccepts s && !(floatValueOverflows (floatCoreDigits s))

/-- Go `strconv.ParseBool`: exactly these twelve strings are accepted. -/
def goParseBool (s : String) : Option Bool :=
  if s = "1" || s = "t" || s = "T" || s = "true" || s = "TRUE" || s = "True" then
    some true
  else if s = "0" || s = "f" || s = "F" || s = "false" || s = "FALSE" || s = "False" then
    some false
  else none

/-- Per-field type inference on decode (`toon.inferType`): signed 64-bit
integer first, then 64-bit float (the branch is taken only when
`strconv.ParseFloat` returns `err == nil`, so a range-overflowing
literal falls through), then boolean, else text. -/
def inferType (s : String) : Value :=
  match goParseInt s with
  | some i => Value.vInt i
  | none =>
    if goParseFloatOk s then Value.vFloat s
    else
      match goParseBool s with
      | some b => Value.vBool b
      | none => Value.vText s

/-- Escaping of one character (`toon.escapeTOON`, per-character form of
the `strings.NewReplacer` whose patterns are all single characters). -/
def escChar (c : Char) : List Char :=
  if c = '\\' then ['\\', '\\']
  else if c = ',' then ['\\', ',']
  else if c = '\n' then ['\\', 'n']
  else if c = '\r' then ['\\', 'r']
  else [c]

/-- Go `toon.escapeTOON`. -/
def escapeTOON (s : String) : String :=
  String.mk (s.data.flatMap escChar)

/-- State machine of `toon.parseTOONRow`: one escape bit, a current-field
buffer, and the accumulated fields.  A trailing lone backslash is
dropped, as in the source. -/
def parseRowAux : List Char → Bool → List Char → List String → List String
  | [], _, cur, acc => acc ++ [String.mk cur]
  | c :: rest, esc, cur, acc =>
    if esc then
      let out : List Char :=
        if c = '\\' then ['\\']
        else if c = ',' then [',']
        else if c = 'n' then ['\n']
        else if c = 'r' then ['\r']
        else ['\\', c]
      parseRowAux rest false (cur ++ out) acc
    else if c = '\\' then parseRowAux rest true cur acc
    else if c = ',' then parseRowAux rest false [] (acc ++ [String.mk cur])
    else parseRowAux rest false (cur ++ [c]) acc

/-- Go `toon.parseTOONRow`. -/
def parseTOONRow (line : String) : List String :=
  parseRowAux line.data false [] []

/-- Error taxonomy of the engine (package `toon` sentinel errors plus
package `db` errors).  Go wraps some of these with `fmt.Errorf(%w)`;
wrapping preserves identity, so the model keeps the base variant. -/
inductive Err where
  | missingID
  | invalidHeader
  | invalidCount
  | schemaMissingID
  | emptyBlock
  | malformedBlock
  | schemaMismatch
  | notFound
  | collectionClosed
  | ioErr
  | gzipErr
deriving DecidableEq, Repr

/-- Drops one trailing carriage return (`dropCR` in `bufio.ScanLines`). -/
def dropCR (l : List Char) : List Char :=
  match l.getLast? with
  | some c => if c = '\r' then l.dropLast else l
  | none => l

/-- One `bufio.Scanner` step with the `ScanLines` split function: `none`
at end of input; otherwise the text of the next line (newline excluded,
one trailing carriage return stripped) and the remaining input.  A final
line without a newline terminator is still returned.  The 64 KiB token
limit of `bufio.Scanner` is abstracted (no claim involves lines that
long). -/
def takeLine (l : List Char) : Option (List Char × List Char) :=
  match l with
  | [] => none
  | _ =>
    match l.findIdx? (fun c => c == '\n') with
    | some i => some (dropCR (l.take i), l.drop (i + 1))
    | none => some (dropCR l, [])

/-- Go `strings.Split` by a one-character separator. -/
def splitOnChar (sep : Char) : List Char → List (List Char)
  | [] => [[]]
  | c :: rest =>
    let r := splitOnChar sep rest
    if c = sep then [] :: r
    else
      match r with
      | h :: t => (c :: h) :: t
      | [] => [[c]]

/-- Go `toon.ParseHeader`: locate the first `[` and `]` and the first
`{` and `}`, parse the count with `strconv.Atoi`, split the schema on
commas, and find the column of the `id` field. -/
def ParseHeader (header : String) : Except Err (Int × List String × Nat) :=
  match header.data.findIdx? (fun c => c == '['), header.data.findIdx? (fun c => c == ']') with
  | some lb, some rb =>
    if rb < lb then .error .invalidHeader
    else
      match goParseInt (String.mk ((header.data.drop (lb + 1)).take (rb - lb - 1))) with
      | none => .error .invalidCount
      | some count =>
        match header.data.findIdx? (fun c => c == '{'),
            header.data.findIdx? (fun c => c == '}') with
        | some lc, some rc =>
          if rc < lc then .error .invalidHeader
          else
            match ((splitOnChar ',' ((header.data.drop (lc + 1)).take (rc - lc - 1))).map
                String.mk).findIdx? (fun k => k == "id") with
            | some i =>
              .ok (count,
                (splitOnChar ',' ((header.data.drop (lc + 1)).take (rc - lc - 1))).map
                  String.mk, i)
            | none => .error .schemaMissingID
        | _, _ => .error .invalidHeader
  | _, _ => .error .invalidHeader

/-- Builds the decoded document from a schema and a parsed row
(map insertion in schema order, as in the source). -/
def buildDoc (schema : List String) (row : List String) : Document :=
  (schema.zip row).foldl (fun d p => docSet d p.1 (inferType p.2)) []

/-- Row-scanning loop of `toon.Decode`: reads `count` lines, parses each
row, checks the field count against the schema, and returns the first
document whose id column equals the target. -/
def decodeRows (schema : List String) (idCol : Nat) (target : String) :
    Nat → List Char → Except Err (Option Document)
  | 0, _ => .ok none
  | n + 1, data =>
    match takeLine data with
    | none => .error .malformedBlock
    | some (line, rest) =>
      let row := parseTOONRow (String.mk line)
      if row.length ≠ schema.length then .error .schemaMismatch
      else if row.getD idCol "" == target then .ok (some (buildDoc schema row))
      else decodeRows schema idCol target n rest

/-- Go `toon.Decode`: single-key block decode.  Returns `ok none` when
the block parses but the target id is absent (the Go `nil, nil`
result). -/
def Decode (data : List Char) (target : String) : Except Err (Option Document) :=
  match takeLine data with
  | none => .error .emptyBlock
  | some (header, rest) =>
    match ParseHeader (String.mk header) with
    | .error e => .error e
    | .ok (count, schema, idCol) => decodeRows schema idCol target count.toNat rest

/-- Row loop of `toon.ExtractIDs`: for id in column 0 the key is the
prefix of the raw line up to the first comma (`strings.SplitN`, not
escape-aware); otherwise the full escape-aware row parse is used. -/
def extractRows (idCol : Nat) : Nat → List Char → List String → Except Err (List String)
  | 0, _, acc => .ok acc
  | n + 1, data, acc =>
    match takeLine data with
    | none => .error .malformedBlock
    | some (line, rest) =>
      if idCol = 0 then
        extractRows idCol n rest (acc ++ [String.mk (line.takeWhile (fun c => !(c == ',')))])
      else
        let row := parseTOONRow (String.mk line)
        extractRows idCol n rest (if idCol < row.length then acc ++ [row.getD idCol ""] else acc)

/-- Go `toon.ExtractIDs`: key extraction used by the recovery scanner. -/
def ExtractIDs (data : List Char) : Except Err (List String) :=
  match takeLine data with
  | none => .error .emptyBlock
  | some (header, rest) =>
    match ParseHeader (String.mk header) with
    | .error e => .error e
    | .ok (count, _, idCol) => extractRows idCol count.toNat rest []

/-- Comparator of `toon.Encode`'s `sort.Slice`: `id` sorts first, the
rest in ascending textual order. -/
def schemaLe (a b : String) : Bool :=
  a == "id" || (!(b == "id") && decide (a ≤ b))

/-- `schemaLe` as a relation. -/
def schemaRel (a b : String) : Prop :=
  schemaLe a b = true

instance : DecidableRel schemaRel := fun a b => instDecidableEqBool (schemaLe a b) true

/-- Sorting by `schemaLe` (the comparator is a total preorder that is
antisymmetric on the distinct keys of a batch, so the unstable Go sort
is deterministic). -/
def sortSchema (l : List String) : List String :=
  List.insertionSort schemaRel l

/-- The key set of a record (a Go map has each key once). -/
def docKeys (d : Document) : List String :=
  (d.map (fun p => p.1)).dedup

/-- Go `toon.Encode`, schema computation step. -/
def batchSchema (docs : List Document) : List String :=
  sortSchema ((docs.map docKeys).flatten.dedup)

/-- The rendered field texts of one record in schema order (before
escaping). -/
def rowStrings (schema : List String) (d : Document) : List String :=
  schema.map (fun k => renderOpt (docGet d k))

/-- The body of one encoded row: each schema field rendered (missing
fields render as the `nil` interface) and escaped, joined with
commas. -/
def rowBody (schema : List String) (d : Document) : List Char :=
  List.intercalate [','] ((rowStrings schema d).map (fun f => (escapeTOON f).data))

/-- One encoded row: body plus terminating newline. -/
def rowChars (schema : List String) (d : Document) : List Char :=
  rowBody schema d ++ ['\n']

/-- The text of the header line `name[N]{f0,...,fk}:` (without the
newline). -/
def headerText (name : String) (n : Nat) (schema : List String) : List Char :=
  name.data ++ '[' :: natToChars n ++ ']' :: '{' ::
    (List.intercalate [','] (schema.map String.data)) ++ ['}', ':']

/-- The encoded header line with trailing newline. -/
def headerChars (name : String) (n : Nat) (schema : List String) : List Char :=
  headerText name n schema ++ ['\n']

/-- The raw bytes `toon.Encode` produces for a non-empty batch whose
records all carry an id. -/
def encodeBytes (name : String) (docs : List Document) : List Char :=
  headerChars name docs.length (batchSchema docs) ++
    (docs.map (rowChars (batchSchema docs))).flatten

/-- Go `toon.Encode`: empty input yields empty output (`nil, nil`),
a record without `id` yields `ErrMissingID`. -/
def Encode (name : String) (docs : List Document) : Except Err (List Char) :=
  if docs.isEmpty then .ok []
  else if docs.any (fun d => (docGet d "id").isNone) then .error .missingID
  else .ok (encodeBytes name docs)

/-- A block location: byte offset and length in the collection file
(`db.BlockInfo`). -/
structure BlockInfo where
  offset : Nat
  length : Nat
deriving DecidableEq, Repr

/-- The in-memory primary-key index (`map[string]BlockInfo`), as an
association list with unique keys. -/
abbrev IndexMap := List (String × BlockInfo)

/-- Index lookup. -/
def idxGet (m : IndexMap) (k : String) : Option BlockInfo :=
  (m.find? (fun p => p.1 == k)).map (fun p => p.2)

/-- Index store with overwrite (`c.index[id] = info`). -/
def idxSet (m : IndexMap) (k : String) (info : BlockInfo) : IndexMap :=
  if m.any (fun p => p.1 == k) then
    m.map (fun p => if p.1 == k then (k, info) else p)
  else m ++ [(k, info)]

/-- Index removal (`delete(c.index, id)`). -/
def idxErase (m : IndexMap) (k : String) : IndexMap :=
  m.filter (fun p => !(p.1 == k))

/-- Abstract model of the external `compress/gzip` library:
`compress` is the writer at the default level, `readAll` is
`gzip.NewReader` followed by `io.ReadAll` (multistream), `decodeMember`
is the single-member streaming decode used by the recovery scanner and
returns the decompressed bytes together with the number of source bytes
consumed (`none` models a reader-construction or decompression
error). -/
structure GzipModel where
  compress : List Char → List Char
  readAll : List Char → Option (List Char)
  decodeMember : List Char → Option (List Char × Nat)

/-- The laws of `compress/gzip` the engine relies on: compressed data
begins with the two magic bytes and is at least three bytes long;
decompressing exactly one member inverts compression and consumes
exactly the compressed bytes; a full read of a compressed buffer
inverts compression. -/
structure LawfulGzip (G : GzipModel) : Prop where
  magic : ∀ x, ∃ c rest, G.compress x = gzByte1 :: gzByte2 :: c :: rest
  readAll_compress : ∀ x, G.readAll (G.compress x) = some x
  member_prefix : ∀ x rest,
    G.decodeMember (G.compress x ++ rest) = some (x, (G.compress x).length)

/-- A per-collection state (`db.Collection`): name, file bytes, memtable,
index, compression flag; `closed` models `c.file == nil`. -/
structure Collection where
  name : String
  fileData : List Char
  memtable : List Document
  index : IndexMap
  compression : Bool
  closed : Bool

/-- Go `db.newCollection` on a fresh (empty) file. -/
def newCollection (name : String) (compression : Bool) : Collection :=
  { name := name, fileData := [], memtable := [], index := [],
    compression := compression, closed := false }

/-- The key a document is stored under: `fmt.Sprint(doc["id"])`. -/
def renderId (d : Document) : String :=
  renderOpt (docGet d "id")

/-- Go `Collection.Insert`: requires an `id` field; a non-text id is
rendered to text and written back into the record; the record is
appended to the memtable and the key returned. -/
def Insert (d : Document) (c : Collection) : Except Err (String × Collection) :=
  match docGet d "id" with
  | none => .error .missingID
  | some idVal =>
    let p : String × Document :=
      match idVal with
      | .vText s => (s, d)
      | v => (renderValue v, docSet d "id" (.vText (renderValue v)))
    if c.closed then .error .collectionClosed
    else .ok (p.1, { c with memtable := c.memtable ++ [p.2] })

/-- Removes the first element of a list satisfying the match used by
`Delete`; `none` when absent. -/
def removeFirstMatch (id : String) : List Document → Option (List Document)
  | [] => none
  | d :: rest =>
    if renderId d == id then some rest
    else (removeFirstMatch id rest).map (fun l => d :: l)

/-- Go `Collection.Delete` scans the memtable from newest to oldest and
removes the first hit only (the loop breaks), so this removes the
newest matching entry. -/
def removeNewest (id : String) (l : List Document) : Option (List Document) :=
  (removeFirstMatch id l.reverse).map List.reverse

/-- Go `Collection.Delete`: removes the newest memtable entry for the
key (if any) and the index entry (if any); `ErrNotFound` if neither was
present.  Returned with the post-state. -/
def Delete (id : String) (c : Collection) : Except Err Unit × Collection :=
  if c.closed then (.error .collectionClosed, c)
  else
    let memRes := removeNewest id c.memtable
    let foundIdx := (idxGet c.index id).isSome
    let mem2 := memRes.getD c.memtable
    let idx2 := if foundIdx then idxErase c.index id else c.index
    if memRes.isSome || foundIdx then
      (.ok (), { c with memtable := mem2, index := idx2 })
    else (.error .notFound, c)

/-- Go `Collection.SetCompression`: affects future commits only. -/
def SetCompression (enabled : Bool) (c : Collection) : Collection :=
  { c with compression := enabled }

/-- Failure injection for the file operations `Commit` performs, in
source order: gzip write/close, seek-to-end, write (an error may leave
`k` bytes of partial data in the file), and fsync. -/
structure DiskOracle where
  compressFail : Bool
  seekFail : Bool
  writeResult : Option Nat
  syncFail : Bool

/-- The all-success oracle. -/
def happyDisk : DiskOracle :=
  { compressFail := false, seekFail := false, writeResult := none, syncFail := false }

/-- Go `Collection.Commit`: no-op on an empty memtable; encode, gzip if
the flag is set, seek to end, write, sync; then assign the one new
`BlockInfo` to every memtable key (overwriting) and clear the memtable.
Every failure path returns before the index update and the clear. -/
def Commit (G : GzipModel) (o : DiskOracle) (c : Collection) :
    Except Err Unit × Collection :=
  if c.closed then (.error .collectionClosed, c)
  else if c.memtable.isEmpty then (.ok (), c)
  else
    match Encode c.name c.memtable with
    | .error e => (.error e, c)
    | .ok raw =>
      if c.compression && o.compressFail then (.error .gzipErr, c)
      else
        let dataToWrite := if c.compression then G.compress raw else raw
        if o.seekFail then (.error .ioErr, c)
        else
          let offset := c.fileData.length
          match o.writeResult with
          | some k => (.error .ioErr, { c with fileData := c.fileData ++ dataToWrite.take k })
          | none =>
            let c2 := { c with fileData := c.fileData ++ dataToWrite }
            if o.syncFail then (.error .ioErr, c2)
            else
              let info : BlockInfo := ⟨offset, dataToWrite.length⟩
              (.ok (), { c2 with
                index := c.memtable.foldl (fun m d => idxSet m (renderId d) info) c.index,
                memtable := [] })

/-- The positional read `ReadAt(buf, info.Offset)` with `len(buf) =
info.Length`: the byte range the location names. -/
def readAtBuf (c : Collection) (info : BlockInfo) : List Char :=
  (c.fileData.drop info.offset).take info.length

/-- The per-block compression sniff of `FindByID`: the first two bytes
equal to the gzip magic number select decompression, otherwise the
bytes are used as read. -/
def resolveBlock (G : GzipModel) (buf : List Char) : Option (List Char) :=
  if decide (2 ≤ buf.length) && (buf.getD 0 ' ' == gzByte1) && (buf.getD 1 ' ' == gzByte2) then
    G.readAll buf
  else some buf

/-- Mapping of the single-key decode result inside `FindByID`: an error
propagates, a `nil` document maps to `ErrNotFound`. -/
def fromDecode : Except Err (Option Document) → Except Err Document
  | .error e => .error e
  | .ok none => .error .notFound
  | .ok (some d) => .ok d

/-- Go `Collection.FindByID`: memtable scan newest-to-oldest, then index
lookup, positional read of the block, per-block gzip sniffing by the
two magic bytes, single-key decode; a `nil` decode result maps to
`ErrNotFound`. -/
def FindByID (G : GzipModel) (c : Collection) (id : String) : Except Err Document :=
  if c.closed then .error .collectionClosed
  else
    match c.memtable.reverse.find? (fun d => renderId d == id) with
    | some d => .ok d
    | none =>
      match idxGet c.index id with
      | none => .error .notFound
      | some info =>
        let buf := readAtBuf c info
        if buf.length < info.length then .error .ioErr
        else
          match resolveBlock G buf with
          | none => .error .gzipErr
          | some blockData => fromDecode (Decode blockData id)

/-- Reads up to `count` lines, re-appending the newline each line
(`blockData += scanner.Text() + "\n"` in `loadIndex`), stopping early at
end of input; returns the accumulated bytes. -/
def takeRows : Nat → List Char → List Char → List Char
  | 0, _, acc => acc
  | n + 1, data, acc =>
    match takeLine data with
    | none => acc
    | some (line, rest) => takeRows n rest (acc ++ line ++ ['\n'])

/-- The scanning loop of `Collection.loadIndex`.  Fuel-based for
totality: in Go the loop advances while the cursor is in range, by the
consumed length of a gzip member (at least the header for real gzip),
by one byte to resync after a gzip error, or by at least the header
line; initial fuel `data.length + 1` suffices on every input on which
the Go loop terminates. -/
def loadIndexLoop (G : GzipModel) (data : List Char) :
    Nat → Nat → IndexMap → IndexMap
  | 0, _, idx => idx
  | fuel + 1, offset, idx =>
    if offset < data.length then
      let sniffed := decide (offset + 2 < data.length) &&
        (data.getD offset ' ' == gzByte1) && (data.getD (offset + 1) ' ' == gzByte2)
      if sniffed then
        match G.decodeMember (data.drop offset) with
        | none => loadIndexLoop G data fuel (offset + 1) idx
        | some (dec, consumed) =>
          match ExtractIDs dec with
          | .error _ => loadIndexLoop G data fuel (offset + consumed) idx
          | .ok ids =>
            loadIndexLoop G data fuel (offset + consumed)
              (ids.foldl (fun m i => idxSet m i ⟨offset, consumed⟩) idx)
      else
        match takeLine (data.drop offset) with
        | none => idx
        | some (line, rest1) =>
          let headerLine := line ++ ['\n']
          match ParseHeader (String.mk headerLine) with
          | .error _ => loadIndexLoop G data fuel (offset + headerLine.length) idx
          | .ok (count, _, _) =>
            let blockData := headerLine ++ takeRows count.toNat rest1 []
            match ExtractIDs blockData with
            | .error _ => loadIndexLoop G data fuel (offset + blockData.length) idx
            | .ok ids =>
              loadIndexLoop G data fuel (offset + blockData.length)
                (ids.foldl (fun m i => idxSet m i ⟨offset, blockData.length⟩) idx)
    else idx

/-- Go `Collection.loadIndex`: rebuilds the index by a forward scan of
the file bytes from offset 0. -/
def loadIndex (G : GzipModel) (data : List Char) : IndexMap :=
  loadIndexLoop G data (data.length + 1) 0 []

/-- Opening an existing collection file (`db.GetCollection` on a
non-empty file): fresh memtable, index rebuilt by the recovery scan. -/
def openCollection (G : GzipModel) (name : String) (fileData : List Char)
    (compression : Bool) : Collection :=
  { name := name, fileData := fileData, memtable := [], index := loadIndex G fileData,
    compression := compression, closed := false }

/-- Inserts a batch of records in order. -/
def insertAll (batch : List Document) (c : Collection) : Except Err Collection :=
  batch.foldlM (fun c d => (Insert d c).map (fun p => p.2)) c

/-- One commit round: set the compression flag, insert the batch,
commit. -/
def runRound (G : GzipModel) (r : Bool × List Document) (c : Collection) :
    Except Err Collection := do
  let c1 ← insertAll r.2 (SetCompression r.1 c)
  let p := Commit G happyDisk c1
  match p.1 with
  | .ok _ => .ok p.2
  | .error e => .error e

/-- A sequence of commit rounds with per-round compression flags. -/
def runRounds (G : GzipModel) (rounds : List (Bool × List Document))
    (c : Collection) : Except Err Collection :=
  rounds.foldlM (fun c r => runRound G r c) c

/-- The record as stored by `Insert`: a non-text id is replaced by its
textual rendering. -/
def coerceId (d : Document) : Document :=
  match docGet d "id" with
  | some (.vText _) => d
  | some v => docSet d "id" (.vText (renderValue v))
  | none => d

/-- The raw (uncompressed) block bytes a round's commit encodes. -/
def roundRaw (name : String) (r : Bool × List Document) : List Char :=
  encodeBytes name (r.2.map coerceId)

/-- The bytes a round appends to the file: nothing for an empty batch,
otherwise the raw block, gzip-wrapped when the round's flag is set. -/
def roundBytes (G : GzipModel) (name : String) (r : Bool × List Document) : List Char :=
  if r.2.isEmpty then []
  else if r.1 then G.compress (roundRaw name r) else roundRaw name r

/-- Reference index of a block list: each block `(wrapped, raw)` placed
at the cumulative offset, contributing the keys `ExtractIDs` reads from
its raw form at its exact location; later blocks overwrite earlier
entries per key. -/
def indexOfBlocks : Nat → List (List Char × List Char) → IndexMap → IndexMap
  | _, [], idx => idx
  | off, b :: rest, idx =>
    let idx2 :=
      match ExtractIDs b.2 with
      | .error _ => idx
      | .ok ids => ids.foldl (fun m i => idxSet m i ⟨off, b.1.length⟩) idx
    indexOfBlocks (off + b.1.length) rest idx2

/-- A field name free of the characters that would corrupt the header
line: comma (schema separator), closing brace, and line breaks. -/
abbrev goodField (s : String) : Prop :=
  ',' ∉ s.data ∧ '}' ∉ s.data ∧ '\n' ∉ s.data ∧ '\r' ∉ s.data

/-- A collection name whose headers parse back: free of the four
structural bracket characters and line breaks, and not starting with
the gzip magic byte (so a raw block is never sniffed as compressed). -/
abbrev goodName (s : String) : Prop :=
  '[' ∉ s.data ∧ ']' ∉ s.data ∧ '{' ∉ s.data ∧ '}' ∉ s.data ∧
    '\n' ∉ s.data ∧ '\r' ∉ s.data ∧ s.data.head? ≠ some gzByte1

/-- A record acceptable to the engine with well-behaved field names:
carries an id and every field name is `goodField`. -/
abbrev goodDoc (d : Document) : Prop :=
  (docGet d "id").isSome ∧ ∀ p ∈ d, goodField p.1

/-- A value that survives the store/load cycle: rendering it to text
and re-inferring the type yields the value back.  Non-numeric,
non-boolean text is stable; text such as `42` or `true` is not (it
decodes to an integer or boolean). -/
abbrev stableValue (v : Value) : Prop :=
  inferType (renderValue v) = v

/-- Extensional equality of records as maps. -/
def docEqv (a b : Document) : Prop :=
  ∀ k, docGet a k = docGet b k

/-- A key text containing none of the characters the row encoding
escapes; only such keys survive the recovery scanner's fast path. -/
abbrev plainKey (s : String) : Prop :=
  '\\' ∉ s.data ∧ ',' ∉ s.data ∧ '\n' ∉ s.data ∧ '\r' ∉ s.data

/-- A concrete executable gzip model used to evaluate closed scenarios:
the magic bytes, a unary length code, a terminator, then the data.  It
satisfies `LawfulGzip`; nothing else in the development depends on its
shape. -/
def unitGzip : GzipModel where
  compress x := gzByte1 :: gzByte2 :: (List.replicate x.length 'u' ++ 'z' :: x)
  readAll l :=
    match l with
    | g1 :: g2 :: rest =>
      if g1 = gzByte1 && g2 = gzByte2 then
        let n := rest.takeWhile (fun c => c == 'u') |>.length
        match rest.drop n with
        | 'z' :: body => if body.length = n then some (body.take n) else none
        | _ => none
      else none
    | _ => none
  decodeMember l :=
    match l with
    | g1 :: g2 :: rest =>
      if g1 = gzByte1 && g2 = gzByte2 then
        let n := rest.takeWhile (fun c => c == 'u') |>.length
        match rest.drop n with
        | 'z' :: body =>
          if n ≤ body.length then some (body.take n, n + n + 3) else none
        | _ => none
      else none
    | _ => none

/-- The key the fast path of `ExtractIDs` reads from one row: the prefix
of the escaped row body up to the first comma.  This is the escaped id
text truncated at the first comma, not the raw id. -/
def rowKey (schema : List String) (d : Document) : String :=
  String.mk ((rowBody schema d).takeWhile (fun c => !(c == ',')))

/-- The last commit round whose (coerced) batch contains a record with
the given key — the round whose block the index points at. -/
def lastRoundWith (k : String) (rounds : List (Bool × List Document)) :
    Option (Bool × List Document) :=
  rounds.reverse.find? (fun r => r.2.any (fun d => renderId (coerceId d) == k))

/-- Reference result of a disk lookup after a sequence of commit
rounds: not-found if no round wrote the key, else the single-key decode
of the raw (uncompressed) block of the last round that wrote it.  This
is independent of the per-round compression flags. -/
def roundsFindSpec (name : String) (rounds : List (Bool × List Document)) (k : String) :
    Except Err Document :=
  match lastRoundWith k rounds with
  | none => .error .notFound
  | some r => fromDecode (Decode (roundRaw name r) k)

/-- The index `Commit` builds over a sequence of rounds: each non-empty
round assigns its one block location to every key of its batch,
overwriting earlier entries. -/
def commitIndexOfRounds (G : GzipModel) (name : String) :
    Nat → List (Bool × List Document) → IndexMap → IndexMap
  | _, [], idx => idx
  | off, r :: rest, idx =>
    if r.2.isEmpty then commitIndexOfRounds G name off rest idx
    else
      commitIndexOfRounds G name (off + (roundBytes G name r).length) rest
        ((r.2.map coerceId).foldl
          (fun m d => idxSet m (renderId d) ⟨off, (roundBytes G name r).length⟩) idx)

/-- The block list a sequence of rounds appends to the file: one
`(wrapped, raw)` pair per non-empty batch. -/
def roundBlocks (G : GzipModel) (name : String)
    (rounds : List (Bool × List Document)) : List (List Char × List Char) :=
  (rounds.filter (fun r => !r.2.isEmpty)).map (fun r => (roundBytes G name r, roundRaw name r))

/-- Well-formedness of a round list for the end-to-end theorems: every
record of every batch carries an id and clean field names, and batch
sizes fit an `int`. -/
abbrev RoundsWf (rounds : List (Bool × List Document)) : Prop :=
  ∀ r ∈ rounds, (∀ d ∈ r.2, goodDoc d) ∧ r.2.length < 2 ^ 63

/-- Concrete record: key `k1`, payload 1. -/
def exDocA : Document := [("id", Value.vText "k1"), ("v", Value.vInt 1)]

/-- Concrete record: key `k1`, payload 2. -/
def exDocB : Document := [("id", Value.vText "k1"), ("v", Value.vInt 2)]

/-- A collection whose memtable holds two uncommitted records with the
same key `k1` (payloads 1 then 2). -/
def dupKeyState : Collection :=
  { name := "users", fileData := [], memtable := [exDocA, exDocB], index := [],
    compression := false, closed := false }

/-- Concrete record whose id text contains a comma. -/
def commaDocA : Document := [("id", Value.vText "a,b"), ("v", Value.vInt 1)]

/-- Second concrete record under the comma id, different payload. -/
def commaDocB : Document := [("id", Value.vText "a,b"), ("v", Value.vInt 2)]

/-- A collection state whose index points key `1` at a stored block that
does not contain that key (the block holds only key `2`). -/
def staleIndexState : Collection :=
  { name := "t", fileData := encodeBytes "t" [[("id", Value.vText "2")]],
    memtable := [],
    index := [("1", ⟨0, (encodeBytes "t" [[("id", Value.vText "2")]]).length⟩)],
    compression := false, closed := false }

/-! Theorems.  Each claim of the specification is settled by one
theorem below; shared structural lemmas come first. -/

/-- C7, counterexample: the decode ladder accepts `TRUE` as a boolean
(Go `strconv.ParseBool` accepts twelve spellings, not just `true` and
`false`) and `Inf` as a float (Go `strconv.ParseFloat` accepts
infinities and NaN), where the claim requires the text results
`TRUE` and `Inf`. -/
theorem claim7_counterexample :
    inferType "TRUE" = Value.vBool true ∧ inferType "Inf" = Value.vFloat "Inf" ∧
      Value.vBool true ≠ Value.vText "TRUE" ∧ Value.vFloat "Inf" ≠ Value.vText "Inf" := by
  decide

/-- C7, amended: decode recovers each field by the ladder: a string
accepted by Go signed 64-bit integer parsing becomes that integer; else
one on which Go 64-bit float parsing succeeds without error (Go float
syntax including the infinity and NaN spellings, and a value that does
not overflow the `float64` range — an overflowing literal such as
`1e309` raises `ErrRange` and falls through) becomes that float; else
one accepted by Go boolean parsing (the twelve spellings of
`strconv.ParseBool`) becomes that boolean; else the text is kept; and
the empty string decodes to the empty text. -/
theorem claim7_type_inference (s : String) :
    (∀ i, goParseInt s = some i → inferType s = Value.vInt i) ∧
    (goParseInt s = none → goParseFloatOk s = true → inferType s = Value.vFloat s) ∧
    (goParseInt s = none → goParseFloatOk s = false →
      ∀ b, goParseBool s = some b → inferType s = Value.vBool b) ∧
    (goParseInt s = none → goParseFloatOk s = false → goParseBool s = none →
      inferType s = Value.vText s) ∧
    inferType "" = Value.vText "" := by
  refine ⟨?_, ?_, ?_, ?_, by decide⟩
  · intro i h; simp [inferType, h]
  · intro h1 h2; simp [inferType, h1, h2]
  · intro h1 h2 b h3; simp [inferType, h1, h2, h3]
  · intro h1 h2 h3; simp [inferType, h1, h2, h3]

set_option maxRecDepth 8000 in
set_option exponentiation.threshold 1100 in
/-- C7, witness: the ladder applied at the plain text `hello` and at the
range-overflowing literal `1e309`, which Go float parsing rejects with
`ErrRange` and the ladder therefore keeps as text. -/
theorem claim7_witness :
    goParseInt "hello" = none ∧ goParseFloatOk "hello" = false ∧
      goParseBool "hello" = none ∧ inferType "hello" = Value.vText "hello" ∧
      goParseFloatAccepts "1e309" = true ∧ goParseFloatOk "1e309" = false ∧
      inferType "1e309" = Value.vText "1e309" :=
  ⟨by decide, by decide, by decide,
    (claim7_type_inference "hello").2.2.2.1 (by decide) (by decide) (by decide),
    by decide, by decide,
    (claim7_type_inference "1e309").2.2.2.1 (by decide) (by decide) (by decide)⟩

/-- Every path through `Commit` either leaves the memtable untouched or
succeeds and clears it. -/
theorem commit_memtable_cases (G : GzipModel) (o : DiskOracle) (c : Collection) :
    (Commit G o c).2.memtable = c.memtable ∨
      ((Commit G o c).1 = .ok () ∧ (Commit G o c).2.memtable = []) := by
  unfold Commit
  repeat' split
  all_goals first
    | (left; rfl)
    | (right; exact ⟨rfl, rfl⟩)

/-- C9: a commit that fails at any stage — encoding, compression, seek,
write (even a partial write), or the durability barrier — leaves the
memtable exactly as it was, so the caller may retry. -/
theorem claim9_commit_failure (G : GzipModel) (o : DiskOracle) (c : Collection) (e : Err)
    (h : (Commit G o c).1 = .error e) : (Commit G o c).2.memtable = c.memtable := by
  rcases commit_memtable_cases G o c with h1 | ⟨h1, _⟩
  · exact h1
  · rw [h1] at h; exact absurd h (by simp)

/-- C9, witness: a commit whose fsync fails keeps both records in the
memtable. -/
theorem claim9_witness :
    (Commit unitGzip { happyDisk with syncFail := true } dupKeyState).1 = .error .ioErr ∧
      (Commit unitGzip { happyDisk with syncFail := true } dupKeyState).2.memtable =
        dupKeyState.memtable :=
  ⟨by decide, claim9_commit_failure unitGzip { happyDisk with syncFail := true }
      dupKeyState .ioErr (by decide)⟩

/-- C10: on a record whose id holds a non-text value, insert stores the
record with its id field replaced by the value's textual rendering and
returns that text as the key; a record whose id is already text is
stored unmodified with its id as the key.  (In Go the replacement
happens in place on the caller's map; the model shows the stored record
and returned key.) -/
theorem claim10_insert_coercion (c : Collection) (d : Document) (v : Value)
    (hopen : c.closed = false) (hid : docGet d "id" = some v) :
    (∀ s, v = Value.vText s →
        Insert d c = .ok (s, { c with memtable := c.memtable ++ [d] })) ∧
    ((∀ s, v ≠ Value.vText s) →
        Insert d c = .ok (renderValue v,
          { c with memtable := c.memtable ++ [docSet d "id" (Value.vText (renderValue v))] })) := by
  constructor
  · intro s hs
    subst hs
    simp [Insert, hid, hopen]
  · intro hnv
    cases v with
    | vText s => exact absurd rfl (hnv s)
    | vInt i => simp [Insert, hid, hopen]
    | vFloat l => simp [Insert, hid, hopen]
    | vBool b => simp [Insert, hid, hopen]

/-- C10, witness: inserting a record with integer id 42 stores the id
as the text `42` and returns it. -/
theorem claim10_witness :
    Insert [("id", Value.vInt 42)] (newCollection "users" false) =
      .ok ("42", { newCollection "users" false with
        memtable := [docSet [("id", Value.vInt 42)] "id" (Value.vText "42")] }) :=
  (claim10_insert_coercion (newCollection "users" false)
    [("id", Value.vInt 42)] (Value.vInt 42) rfl (by decide)).2
    (fun _ hh => Value.noConfusion hh)

/-- C3, amended: when a lookup misses the memtable, hits the index,
reads and resolves the block successfully, and the single-key decoder
yields no document (`nil` without error), `FindByID` fails with
`ErrNotFound` — the code defines no separate `Inconsistency` error. -/
theorem claim3_decode_nil_yields_not_found (G : GzipModel) (c : Collection) (id : String)
    (info : BlockInfo) (blockData : List Char)
    (hopen : c.closed = false)
    (hmem : c.memtable.reverse.find? (fun d => renderId d == id) = none)
    (hidx : idxGet c.index id = some info)
    (hread : (readAtBuf c info).length = info.length)
    (hres : resolveBlock G (readAtBuf c info) = some blockData)
    (hdec : Decode blockData id = .ok none) :
    FindByID G c id = .error .notFound := by
  unfold FindByID
  rw [hopen, hmem, hidx]
  simp only [hread, lt_irrefl, if_false, hres, hdec]
  rfl

/-- C3, counterexample: a state whose index points key `1` at a block
holding only key `2`; the decoder yields no document and `FindByID`
returns exactly `ErrNotFound`, not an error distinct from it. -/
theorem claim3_counterexample :
    Decode staleIndexState.fileData "1" = .ok none ∧
      FindByID unitGzip staleIndexState "1" = .error .notFound := by
  constructor <;> decide

/-- C3, witness: the amended statement applied at the concrete stale
index state. -/
theorem claim3_witness :
    FindByID unitGzip staleIndexState "1" = .error .notFound :=
  claim3_decode_nil_yields_not_found unitGzip staleIndexState "1"
    ⟨0, (encodeBytes "t" [[("id", Value.vText "2")]]).length⟩
    (encodeBytes "t" [[("id", Value.vText "2")]])
    rfl (by decide) (by decide) (by decide) (by decide) (by decide)


/-- Scanning removal finds no entry exactly when no entry matches the key. -/
theorem removeFirstMatch_none_iff (id : String) (l : List Document) :
    removeFirstMatch id l = none ↔ ∀ d ∈ l, renderId d ≠ id := by
  induction l with
  | nil => simp [removeFirstMatch]
  | cons d t ih =>
    by_cases h : renderId d == id
    · simp [removeFirstMatch, h]
      exact fun hall => absurd (by exact beq_iff_eq.mp h) (hall)
    · simp only [removeFirstMatch, h, if_false, Bool.false_eq_true]
      constructor
      · intro hm
        rcases Option.map_eq_none'.mp hm with hm2
        intro e he
        rcases List.mem_cons.mp he with rfl | he2
        · exact fun hh => absurd (beq_iff_eq.mpr hh) (by simp [h])
        · exact (ih.mp hm2) e he2
      · intro hall
        have : removeFirstMatch id t = none := ih.mpr fun e he => hall e (List.mem_cons_of_mem _ he)
        simp [this]

/-- A successful scanning removal removes the first matching entry. -/
theorem removeFirstMatch_some (id : String) (l l' : List Document)
    (h : removeFirstMatch id l = some l') :
    ∃ pre dd post, l = pre ++ dd :: post ∧ renderId dd = id ∧
      (∀ e ∈ pre, renderId e ≠ id) ∧ l' = pre ++ post := by
  induction l generalizing l' with
  | nil => simp [removeFirstMatch] at h
  | cons d t ih =>
    by_cases hd : renderId d == id
    · simp only [removeFirstMatch, hd, if_true] at h
      cases h
      exact ⟨[], d, t, rfl, beq_iff_eq.mp hd, by simp, rfl⟩
    · simp only [removeFirstMatch, hd, Bool.false_eq_true, if_false] at h
      rcases Option.map_eq_some'.mp h with ⟨t', ht', rfl⟩
      rcases ih t' ht' with ⟨pre, dd, post, h1, h2, h3, h4⟩
      refine ⟨d :: pre, dd, post, by simp [h1], h2, ?_, by simp [h4]⟩
      intro e he
      rcases List.mem_cons.mp he with rfl | he2
      · exact fun hh => absurd (beq_iff_eq.mpr hh) (by simp [hd])
      · exact h3 e he2

/-- After erasing a key the index lookup for it is empty. -/
theorem idxGet_erase (m : IndexMap) (k : String) : idxGet (idxErase m k) k = none := by
  unfold idxGet idxErase
  rw [List.find?_eq_none.mpr]
  · rfl
  · intro p hp
    have := (List.mem_filter.mp hp).2
    simpa using this


/-- The newest-first removal finds no entry exactly when no entry matches. -/
theorem removeNewest_none_iff (id : String) (l : List Document) :
    removeNewest id l = none ↔ ∀ d ∈ l, renderId d ≠ id := by
  unfold removeNewest
  rw [Option.map_eq_none']
  rw [removeFirstMatch_none_iff]
  constructor
  · intro h d hd; exact h d (List.mem_reverse.mpr hd)
  · intro h d hd; exact h d (List.mem_reverse.mp hd)

/-- A successful newest-first removal removes the newest matching entry: everything after the removed entry does not match. -/
theorem removeNewest_some (id : String) (l l' : List Document)
    (h : removeNewest id l = some l') :
    ∃ pre dd post, l = pre ++ dd :: post ∧ renderId dd = id ∧
      (∀ e ∈ post, renderId e ≠ id) ∧ l' = pre ++ post := by
  unfold removeNewest at h
  rcases Option.map_eq_some'.mp h with ⟨r, hr, rfl⟩
  rcases removeFirstMatch_some id l.reverse r hr with ⟨pre, dd, post, h1, h2, h3, h4⟩
  refine ⟨post.reverse, dd, pre.reverse, ?_, h2, ?_, ?_⟩
  · have := congrArg List.reverse h1
    simpa using this
  · intro e he; exact h3 e (List.mem_reverse.mp he)
  · rw [h4]; simp

/-- Shape of `Delete` on an open collection, by cases on memtable and index hits. -/
theorem Delete_eq (c : Collection) (id : String) (hopen : c.closed = false) :
    Delete id c =
      match removeNewest id c.memtable, idxGet c.index id with
      | none, none => (.error .notFound, c)
      | some m2, none => (.ok (), { c with memtable := m2 })
      | none, some _ => (.ok (), { c with index := idxErase c.index id })
      | some m2, some _ => (.ok (), { c with memtable := m2, index := idxErase c.index id }) := by
  unfold Delete
  rw [hopen]
  rcases hm : removeNewest id c.memtable with _ | m2 <;>
    rcases hi : idxGet c.index id with _ | info <;>
    simp [hm, hi]

/-- C8, amended: on an open collection, delete returns `ErrNotFound` exactly when no memtable entry and no index entry carries the key, leaving the state unchanged; on success it removes the index entry and the NEWEST matching memtable entry only (older duplicates of the key remain in the memtable). -/
theorem claim8_delete (c : Collection) (id : String) (hopen : c.closed = false) :
    ((Delete id c).1 = .error .notFound ↔
      (∀ d ∈ c.memtable, renderId d ≠ id) ∧ idxGet c.index id = none) ∧
    ((Delete id c).1 = .error .notFound → (Delete id c).2 = c) ∧
    ((Delete id c).1 = .ok () →
      idxGet (Delete id c).2.index id = none ∧
      ((∃ pre dd post, c.memtable = pre ++ dd :: post ∧ renderId dd = id ∧
          (∀ e ∈ post, renderId e ≠ id) ∧ (Delete id c).2.memtable = pre ++ post) ∨
        ((∀ d ∈ c.memtable, renderId d ≠ id) ∧ (Delete id c).2.memtable = c.memtable))) := by
  have hDE := Delete_eq c id hopen
  cases hm : removeNewest id c.memtable with
  | none =>
    cases hi : idxGet c.index id with
    | none =>
      rw [hm, hi] at hDE
      simp only [] at hDE
      rw [hDE]
      refine ⟨?_, ?_, ?_⟩
      · exact iff_of_true rfl ⟨(removeNewest_none_iff id c.memtable).mp hm, rfl⟩
      · intro _; rfl
      · intro h; cases h
    | some info =>
      rw [hm, hi] at hDE
      simp only [] at hDE
      rw [hDE]
      refine ⟨?_, ?_, ?_⟩
      · constructor
        · intro h; cases h
        · rintro ⟨h1, h2⟩; simp [hi] at h2
      · intro h; cases h
      · intro _
        exact ⟨idxGet_erase c.index id,
          Or.inr ⟨(removeNewest_none_iff id c.memtable).mp hm, rfl⟩⟩
  | some m2 =>
    cases hi : idxGet c.index id with
    | none =>
      rw [hm, hi] at hDE
      simp only [] at hDE
      rw [hDE]
      refine ⟨?_, ?_, ?_⟩
      · constructor
        · intro h; cases h
        · rintro ⟨h1, _⟩
          rcases removeNewest_some id c.memtable m2 hm with ⟨pre, dd, post, he, hid2, _, _⟩
          exact absurd hid2 (h1 dd (by rw [he]; simp))
      · intro h; cases h
      · intro _
        refine ⟨hi, Or.inl ?_⟩
        rcases removeNewest_some id c.memtable m2 hm with ⟨pre, dd, post, he, hid2, h3, h4⟩
        exact ⟨pre, dd, post, he, hid2, h3, h4⟩
    | some info =>
      rw [hm, hi] at hDE
      simp only [] at hDE
      rw [hDE]
      refine ⟨?_, ?_, ?_⟩
      · constructor
        · intro h; cases h
        · rintro ⟨h1, h2⟩; simp [hi] at h2
      · intro h; cases h
      · intro _
        refine ⟨idxGet_erase c.index id, Or.inl ?_⟩
        rcases removeNewest_some id c.memtable m2 hm with ⟨pre, dd, post, he, hid2, h3, h4⟩
        exact ⟨pre, dd, post, he, hid2, h3, h4⟩

/-- C8, counterexample: with two memtable entries for key `k1`, delete succeeds but the older entry for `k1` is still in the memtable, so not every memtable entry for the key was removed. -/
theorem claim8_counterexample :
    (Delete "k1" dupKeyState).1 = .ok () ∧
      (Delete "k1" dupKeyState).2.memtable = [exDocA] ∧
      renderId exDocA = "k1" := by
  refine ⟨by decide, by decide, by decide⟩

/-- C8, witness: deleting an absent key from the concrete duplicate-key state reports `ErrNotFound`. -/
theorem claim8_witness :
    (Delete "zz" dupKeyState).1 = .error .notFound :=
  ((claim8_delete dupKeyState "zz" rfl).1).mpr (by decide)


/-- Processing the escaped form of a text through the row state machine appends exactly that text to the current field buffer. -/
theorem parseRowAux_escaped (v : List Char) :
    ∀ (l cur : List Char) (acc : List String),
      parseRowAux (v.flatMap escChar ++ l) false cur acc =
        parseRowAux l false (cur ++ v) acc := by
  induction v with
  | nil => intro l cur acc; simp
  | cons c v ih =>
    intro l cur acc
    have hstep : parseRowAux ((escChar c ++ v.flatMap escChar) ++ l) false cur acc =
        parseRowAux (v.flatMap escChar ++ l) false (cur ++ [c]) acc := by
      by_cases h1 : c = '\\'
      · subst h1; simp [escChar, parseRowAux]
      · by_cases h2 : c = ','
        · subst h2; simp [escChar, parseRowAux, h1]
        · by_cases h3 : c = '\n'
          · subst h3; simp [escChar, parseRowAux, h1, h2]
          · by_cases h4 : c = '\r'
            · subst h4; simp [escChar, parseRowAux, h1, h2, h3]
            · simp [escChar, parseRowAux, h1, h2, h3, h4]
    calc parseRowAux ((c :: v).flatMap escChar ++ l) false cur acc
        = parseRowAux ((escChar c ++ v.flatMap escChar) ++ l) false cur acc := by
          simp
      _ = parseRowAux (v.flatMap escChar ++ l) false (cur ++ [c]) acc := hstep
      _ = parseRowAux l false ((cur ++ [c]) ++ v) acc := ih l (cur ++ [c]) acc
      _ = parseRowAux l false (cur ++ c :: v) acc := by simp

/-- The row state machine over an escaped comma-joined field list recovers the fields. -/
theorem parseRowAux_fields (fs : List String) :
    ∀ (f : String) (cur : List Char) (acc : List String),
      parseRowAux (List.intercalate [','] ((f :: fs).map (fun g => (escapeTOON g).data)))
          false cur acc
        = acc ++ String.mk (cur ++ f.data) :: fs := by
  induction fs with
  | nil =>
    intro f cur acc
    have h1 : List.intercalate [','] [(escapeTOON f).data] = (escapeTOON f).data := by
      simp [List.intercalate]
    rw [List.map_cons, List.map_nil, h1]
    have h2 : (escapeTOON f).data = f.data.flatMap escChar := rfl
    rw [h2]
    have := parseRowAux_escaped f.data [] cur acc
    simpa [parseRowAux] using this
  | cons g fs ih =>
    intro f cur acc
    have h1 : List.intercalate [','] (((f :: g :: fs)).map (fun x => (escapeTOON x).data)) =
        (escapeTOON f).data ++ ',' :: List.intercalate [','] ((g :: fs).map (fun x => (escapeTOON x).data)) := by
      simp [List.intercalate, List.intersperse]
    rw [h1]
    have h2 : (escapeTOON f).data = f.data.flatMap escChar := rfl
    rw [h2, show (f.data.flatMap escChar ++
        ',' :: List.intercalate [','] ((g :: fs).map (fun x => (escapeTOON x).data))) =
        (f.data.flatMap escChar ++
        (',' :: List.intercalate [','] ((g :: fs).map (fun x => (escapeTOON x).data)))) from by simp]
    rw [parseRowAux_escaped f.data]
    have h3 : parseRowAux (',' :: List.intercalate [','] ((g :: fs).map (fun x => (escapeTOON x).data)))
        false (cur ++ f.data) acc =
        parseRowAux (List.intercalate [','] ((g :: fs).map (fun x => (escapeTOON x).data)))
          false [] (acc ++ [String.mk (cur ++ f.data)]) := by
      simp [parseRowAux]
    rw [h3, ih g [] (acc ++ [String.mk (cur ++ f.data)])]
    simp

/-- The escape-then-parse round trip over a full row, helper form. -/
theorem parseRow_escape_fields (fields : List String) (h : fields ≠ []) :
    parseTOONRow (String.mk (List.intercalate [',']
      (fields.map (fun f => (escapeTOON f).data)))) = fields := by
  cases fields with
  | nil => exact absurd rfl h
  | cons f fs =>
    unfold parseTOONRow
    have := parseRowAux_fields fs f [] []
    simpa using this

/-- C6: for every list of field texts (each containing any combination of backslash, comma, LF and CR mixed with arbitrary other characters), escaping each field on encode and running the escape-aware row parse on decode yields every field text back byte-for-byte. -/
theorem claim6_escape_roundtrip (fields : List String) (h : fields ≠ []) :
    parseTOONRow (String.mk (List.intercalate [',']
      (fields.map (fun f => (escapeTOON f).data)))) = fields :=
  parseRow_escape_fields fields h

/-- C6, witness: the round trip on a row containing a comma, a newline, backslashes and a carriage return. -/
theorem claim6_witness :
    parseTOONRow (String.mk (List.intercalate [',']
      (["a,b", "x\ny", "C:\\U", "r\rr"].map (fun f => (escapeTOON f).data)))) =
      ["a,b", "x\ny", "C:\\U", "r\rr"] :=
  claim6_escape_roundtrip ["a,b", "x\ny", "C:\\U", "r\rr"] (by decide)


/-- The first newline in a line-plus-newline-plus-rest layout is found at the line length. -/
theorem findIdx?_nl (t rest : List Char) (h : '\n' ∉ t) :
    ∀ i, List.findIdx? (fun c => c == '\n') (t ++ '\n' :: rest) i = some (t.length + i) := by
  induction t with
  | nil => intro i; simp [List.findIdx?]
  | cons c t ih =>
    intro i
    have hc : c ≠ '\n' := fun hh => h (hh ▸ List.mem_cons_self c t)
    have hni : '\n' ∉ t := fun hh => h (List.mem_cons_of_mem c hh)
    simp only [List.cons_append, List.findIdx?, beq_iff_eq, hc, if_false]
    rw [show (t.append ('\n' :: rest)) = t ++ '\n' :: rest from rfl, ih hni (i + 1)]
    congr 1
    simp only [List.length_cons]
    omega

/-- Stripping a trailing carriage return is the identity on text without one. -/
theorem dropCR_of_not_mem (t : List Char) (h : '\r' ∉ t) : dropCR t = t := by
  unfold dropCR
  match hl : t.getLast? with
  | none => rfl
  | some c =>
    have hc : c ∈ t := by
      rcases List.getLast?_eq_some_iff.mp hl with ⟨ys, rfl⟩
      simp
    have : c ≠ '\r' := fun hh => h (hh ▸ hc)
    simp [this]

/-- One scanner step over a newline-terminated clean line returns the line text and the remaining input. -/
theorem takeLine_append (t rest : List Char) (h1 : '\n' ∉ t) (h2 : '\r' ∉ t) :
    takeLine (t ++ '\n' :: rest) = some (t, rest) := by
  unfold takeLine
  have hne : t ++ '\n' :: rest ≠ [] := by simp
  rw [findIdx?_nl t rest h1 0]
  have ht : (t ++ '\n' :: rest).take (t.length + 0) = t := by
    rw [Nat.add_zero]
    exact List.take_left t _
  have hd : (t ++ '\n' :: rest).drop (t.length + 0 + 1) = rest := by
    rw [Nat.add_zero]
    have hda : (t ++ '\n' :: rest).drop (t.length + 1) = ('\n' :: rest).drop 1 :=
      List.drop_append 1
    exact hda
  cases hh : t ++ '\n' :: rest with
  | nil => exact absurd hh hne
  | cons a l =>
    rw [← hh]
    simp only [ht, hd, dropCR_of_not_mem t h2]


/-- Every character the decimal renderer emits is a digit. -/
theorem natToCharsAux_digits (fuel n : Nat) :
    ∀ c ∈ natToCharsAux fuel n, c.isDigit := by
  induction fuel generalizing n with
  | zero => intro c hc; simp [natToCharsAux] at hc
  | succ fuel ih =>
    intro c hc
    unfold natToCharsAux at hc
    by_cases h : n = 0
    · simp [h] at hc
    · rw [if_neg h] at hc
      rcases List.mem_append.mp hc with h1 | h1
      · exact ih (n / 10) c h1
      · have : c = Char.ofNat (48 + n % 10) := by simpa using h1
        subst this
        have hlt : n % 10 < 10 := Nat.mod_lt n (by norm_num)
        interval_cases h : n % 10 <;> decide

/-- Every character of a rendered natural number is a digit. -/
theorem natToChars_digits (n : Nat) : ∀ c ∈ natToChars n, c.isDigit := by
  unfold natToChars
  by_cases h : n = 0
  · intro c hc
    rw [if_pos h] at hc
    have : c = '0' := by simpa using hc
    subst this; decide
  · rw [if_neg h]; exact natToCharsAux_digits (n + 1) n

/-- Unfolding of the digit-run value over a snoc. -/
theorem decDigitsVal_append (l : List Char) (c : Char) :
    decDigitsVal (l ++ [c]) =
      match decDigitsVal l with
      | none => none
      | some n => if c.isDigit then some (n * 10 + (c.toNat - 48)) else none := by
  unfold decDigitsVal
  rw [List.foldl_append]
  rfl

/-- The digit-run value of the rendered digits is the number itself (auxiliary, fuel form). -/
theorem decDigitsVal_natToCharsAux (fuel n : Nat) (h : n < fuel) :
    decDigitsVal (natToCharsAux fuel n) = some n := by
  induction fuel using Nat.strong_induction_on generalizing n with
  | _ fuel ih =>
    match fuel with
    | 0 => omega
    | fuel + 1 =>
      unfold natToCharsAux
      by_cases h0 : n = 0
      · simp [h0, decDigitsVal]
      · rw [if_neg h0, decDigitsVal_append]
        have hdiv : n / 10 < fuel := by
          have h1 : n / 10 < n := Nat.div_lt_self (Nat.pos_of_ne_zero h0) (by norm_num)
          omega
        rw [ih fuel (by omega) (n / 10) hdiv]
        have hmod : n % 10 < 10 := Nat.mod_lt n (by norm_num)
        have hdig : (Char.ofNat (48 + n % 10)).isDigit := by
          interval_cases hh : n % 10 <;> decide
        have htn : (Char.ofNat (48 + n % 10)).toNat = 48 + n % 10 := by
          interval_cases hh : n % 10 <;> decide
        simp only [hdig, if_true, htn]
        congr 1
        omega

/-- The digit-run value of a rendered natural number is the number. -/
theorem decDigitsVal_natToChars (n : Nat) : decDigitsVal (natToChars n) = some n := by
  unfold natToChars
  by_cases h : n = 0
  · rw [if_pos h, h]; decide
  · rw [if_neg h]
    exact decDigitsVal_natToCharsAux (n + 1) n (by omega)

/-- Decimal rendering is never empty. -/
theorem natToChars_ne_nil (n : Nat) : natToChars n ≠ [] := by
  unfold natToChars
  by_cases h : n = 0
  · simp [h]
  · rw [if_neg h]
    unfold natToCharsAux
    rw [if_neg h]
    simp

/-- Go integer parsing inverts decimal rendering for numbers within the signed 64-bit range. -/
theorem goParseInt_natToChars (n : Nat) (h : n < 2 ^ 63) :
    goParseInt (String.mk (natToChars n)) = some (n : Int) := by
  unfold goParseInt
  have hd := natToChars_digits n
  have hne := natToChars_ne_nil n
  have hdval := decDigitsVal_natToChars n
  have hdata : (String.mk (natToChars n)).data = natToChars n := rfl
  rw [hdata]
  match hl : natToChars n with
  | [] => exact absurd hl hne
  | c :: rest =>
    have hc : c.isDigit := hd c (by rw [hl]; simp)
    have hc1 : c ≠ '-' := by intro hh; rw [hh] at hc; exact absurd hc (by decide)
    have hc2 : c ≠ '+' := by intro hh; rw [hh] at hc; exact absurd hc (by decide)
    rw [hl] at hdval
    simp only [hc1, hc2, if_false, List.isEmpty_cons, hdval, h, if_true]
    simp [h]


instance : IsTotal String schemaRel := by
  constructor
  intro a b
  unfold schemaRel schemaLe
  by_cases ha : a = "id"
  · left; simp [ha]
  · by_cases hb : b = "id"
    · right; simp [hb]
    · rcases le_total a b with h | h
      · left; simp [ha, hb, h]
      · right; simp [ha, hb, h]

instance : IsTrans String schemaRel := by
  constructor
  intro a b c hab hbc
  unfold schemaRel schemaLe at *
  by_cases ha : a = "id"
  · simp [ha]
  · rcases Bool.or_eq_true_iff.mp hab with h | h
    · exact absurd (by simpa using h) ha
    · have h1 := h
      simp only [Bool.and_eq_true, decide_eq_true_eq] at h1
      obtain ⟨hb, hab2⟩ := h1
      have hbne : b ≠ "id" := by simpa using hb
      rcases Bool.or_eq_true_iff.mp hbc with h2 | h2
      · exact absurd (by simpa using h2) hbne
      · simp only [Bool.and_eq_true, decide_eq_true_eq] at h2
        obtain ⟨hcne, hbc2⟩ := h2
        refine Bool.or_eq_true_iff.mpr (Or.inr ?_)
        simp only [Bool.and_eq_true, decide_eq_true_eq]
        exact ⟨hcne, le_trans hab2 hbc2⟩

/-- Schema sorting preserves membership. -/
theorem mem_sortSchema (a : String) (l : List String) : a ∈ sortSchema l ↔ a ∈ l :=
  (List.perm_insertionSort schemaRel l).mem_iff

/-- Schema sorting preserves distinctness. -/
theorem nodup_sortSchema (l : List String) (h : l.Nodup) : (sortSchema l).Nodup :=
  ((List.perm_insertionSort schemaRel l).nodup_iff).mpr h

/-- When `id` is among the keys, the sorted schema starts with `id`. -/
theorem sortSchema_head_id (l : List String) (hid : "id" ∈ l) :
    ∃ t, sortSchema l = "id" :: t := by
  have hs : List.Sorted schemaRel (sortSchema l) :=
    List.sorted_insertionSort schemaRel l
  have hmem : "id" ∈ sortSchema l := (mem_sortSchema _ l).mpr hid
  match he : sortSchema l with
  | [] => rw [he] at hmem; cases hmem
  | h :: t =>
    rw [he] at hmem hs
    rcases List.mem_cons.mp hmem with rfl | hmem2
    · exact ⟨t, rfl⟩
    · have := (List.sorted_cons.mp hs).1 "id" hmem2
      unfold schemaRel schemaLe at this
      have hh : h = "id" := by
        rcases Bool.or_eq_true_iff.mp this with h1 | h1
        · simpa using h1
        · simp only [Bool.and_eq_true] at h1
          have h2 := h1.1
          simp at h2
      exact ⟨t, by rw [hh]⟩


/-- The first index satisfying a predicate, in a list decomposed around its first satisfying element. -/
theorem findIdx?_first (p : Char → Bool) (l1 : List Char) (c : Char) (l2 : List Char)
    (h1 : ∀ x ∈ l1, p x = false) (hc : p c = true) :
    ∀ i, List.findIdx? p (l1 ++ c :: l2) i = some (l1.length + i) := by
  induction l1 with
  | nil => intro i; simp [List.findIdx?, hc]
  | cons a t ih =>
    intro i
    have ha : p a = false := h1 a (List.mem_cons_self a t)
    have ht : ∀ x ∈ t, p x = false := fun x hx => h1 x (List.mem_cons_of_mem a hx)
    simp only [List.cons_append, List.findIdx?, ha, Bool.false_eq_true, if_false]
    rw [show ((t.append (c :: l2))) = t ++ c :: l2 from rfl, ih ht (i + 1)]
    congr 1
    simp only [List.length_cons]
    omega

/-- Splitting text without the separator yields the single piece. -/
theorem splitOnChar_no_sep (sep : Char) (l : List Char) (h : sep ∉ l) :
    splitOnChar sep l = [l] := by
  induction l with
  | nil => rfl
  | cons c t ih =>
    have hc : c ≠ sep := fun hh => h (hh ▸ List.mem_cons_self c t)
    have ht : sep ∉ t := fun hh => h (List.mem_cons_of_mem c hh)
    unfold splitOnChar
    rw [ih ht]
    simp [hc]

/-- Splitting peels off a separator-free prefix. -/
theorem splitOnChar_append (sep : Char) (l1 rest : List Char) (h : sep ∉ l1) :
    splitOnChar sep (l1 ++ sep :: rest) = l1 :: splitOnChar sep rest := by
  induction l1 with
  | nil =>
    show splitOnChar sep (sep :: rest) = [] :: splitOnChar sep rest
    simp only [splitOnChar, if_true, eq_self_iff_true]
  | cons c t ih =>
    have hc : c ≠ sep := fun hh => h (hh ▸ List.mem_cons_self c t)
    have ht : sep ∉ t := fun hh => h (List.mem_cons_of_mem c hh)
    show splitOnChar sep (c :: (t ++ sep :: rest)) = (c :: t) :: splitOnChar sep rest
    simp only [splitOnChar, hc, if_false]
    rw [ih ht]

/-- Splitting inverts comma-joining of separator-free pieces. -/
theorem splitOnChar_intercalate (sep : Char) (fs : List (List Char)) (hne : fs ≠ [])
    (h : ∀ f ∈ fs, sep ∉ f) :
    splitOnChar sep (List.intercalate [sep] fs) = fs := by
  induction fs with
  | nil => exact absurd rfl hne
  | cons f fs ih =>
    cases fs with
    | nil =>
      have h1 : List.intercalate [sep] [f] = f := by simp [List.intercalate]
      rw [h1, splitOnChar_no_sep sep f (h f (by simp))]
    | cons g fs2 =>
      have h1 : List.intercalate [sep] (f :: g :: fs2) =
          f ++ sep :: List.intercalate [sep] (g :: fs2) := by
        simp [List.intercalate, List.intersperse]
      rw [h1, splitOnChar_append sep f _ (h f (by simp))]
      rw [ih (by simp) (fun x hx => h x (List.mem_cons_of_mem f hx))]

/-- A character of a joined list is the separator or lies in one of the pieces. -/
theorem mem_intercalate_sep (sep : Char) (fs : List (List Char)) (c : Char)
    (h : c ∈ List.intercalate [sep] fs) : c = sep ∨ ∃ f ∈ fs, c ∈ f := by
  induction fs with
  | nil => simp [List.intercalate] at h
  | cons f fs ih =>
    cases fs with
    | nil =>
      have h1 : List.intercalate [sep] [f] = f := by simp [List.intercalate]
      rw [h1] at h
      exact Or.inr ⟨f, by simp, h⟩
    | cons g fs2 =>
      have h1 : List.intercalate [sep] (f :: g :: fs2) =
          f ++ sep :: List.intercalate [sep] (g :: fs2) := by
        simp [List.intercalate, List.intersperse]
      rw [h1] at h
      rcases List.mem_append.mp h with h2 | h2
      · exact Or.inr ⟨f, by simp, h2⟩
      · rcases List.mem_cons.mp h2 with rfl | h3
        · exact Or.inl rfl
        · rcases ih h3 with h4 | ⟨f2, hf2, hcf2⟩
          · exact Or.inl h4
          · exact Or.inr ⟨f2, List.mem_cons_of_mem f hf2, hcf2⟩


/-- A digit character is none of the structural characters of the block format. -/
theorem digit_ne (c : Char) (hc : c.isDigit) :
    c ≠ '[' ∧ c ≠ ']' ∧ c ≠ '{' ∧ c ≠ '}' ∧ c ≠ ',' ∧ c ≠ '\n' ∧ c ≠ '\r' := by
  refine ⟨?_, ?_, ?_, ?_, ?_, ?_, ?_⟩ <;>
    (intro hh; rw [hh] at hc; exact absurd hc (by decide))

/-- ParseHeader over an encoder-produced header (with any tail after the closing brace, covering both the bare header text and the newline-terminated header line) recovers the count, the schema, and id column 0. -/
theorem parseHeader_chars (name : String) (n : Nat) (schema : List String) (T : List Char)
    (hname : goodName name)
    (hfields : ∀ f ∈ schema, goodField f)
    (hn : n < 2 ^ 63)
    (hschema : ∃ t, schema = "id" :: t) :
    ParseHeader (String.mk (name.data ++ '[' :: natToChars n ++ ']' :: '{' ::
      (List.intercalate [','] (schema.map String.data)) ++ '}' :: T)) =
      .ok ((n : Int), schema, 0) := by
  obtain ⟨hnm1, hnm2, hnm3, hnm4, hnm5, hnm6, hnm7⟩ := hname
  obtain ⟨tl, htl⟩ := hschema
  obtain ⟨dg, hdg_def⟩ : ∃ dg, dg = natToChars n := ⟨_, rfl⟩
  obtain ⟨ic, hic_def⟩ : ∃ ic, ic = List.intercalate [','] (schema.map String.data) := ⟨_, rfl⟩
  have hdig : ∀ c ∈ dg, c.isDigit := by rw [hdg_def]; exact natToChars_digits n
  obtain ⟨L, hL⟩ : ∃ L, L = name.data ++ '[' :: dg ++ ']' :: '{' :: ic ++ '}' :: T := ⟨_, rfl⟩
  rw [show (String.mk (name.data ++ '[' :: natToChars n ++ ']' :: '{' ::
      (List.intercalate [','] (schema.map String.data)) ++ '}' :: T)) = String.mk L from by
    rw [hL, hdg_def, hic_def]]
  have hicmem : ∀ c, c ∈ ic → c = ',' ∨ ∃ f ∈ schema, c ∈ f.data := by
    intro c hc
    rw [hic_def] at hc
    rcases mem_intercalate_sep ',' _ c hc with h | ⟨fd, hfd, hcf⟩
    · exact Or.inl h
    · rcases List.mem_map.mp hfd with ⟨g, hg, rfl⟩
      exact Or.inr ⟨g, hg, hcf⟩
  have e1 : List.findIdx? (fun c => c == '[') L 0 = some name.data.length := by
    have hshape : L = name.data ++ '[' :: (dg ++ ']' :: '{' :: ic ++ '}' :: T) := by
      simp [hL]
    have hpre : ∀ x ∈ name.data, ((x == '[') = false) := by
      intro x hx
      simp only [beq_eq_false_iff_ne, ne_eq]
      exact fun hh => hnm1 (hh ▸ hx)
    rw [hshape, findIdx?_first (fun c => c == '[') name.data '[' _ hpre (by simp) 0,
      Nat.add_zero]
  have e2 : List.findIdx? (fun c => c == ']') L 0 =
      some (name.data.length + dg.length + 1) := by
    have hshape : L = (name.data ++ '[' :: dg) ++ ']' :: ('{' :: ic ++ '}' :: T) := by
      simp [hL]
    have hpre : ∀ x ∈ name.data ++ '[' :: dg, ((x == ']') = false) := by
      intro x hx
      simp only [List.mem_append, List.mem_cons] at hx
      simp only [beq_eq_false_iff_ne, ne_eq]
      rcases hx with h | h | h
      · exact fun hh => hnm2 (hh ▸ h)
      · subst h; decide
      · exact (digit_ne x (hdig x h)).2.1
    rw [hshape, findIdx?_first (fun c => c == ']') _ ']' _ hpre (by simp) 0]
    have hgoal : (name.data ++ '[' :: dg).length + 0 =
        name.data.length + dg.length + 1 := by
      simp only [List.length_append, List.length_cons, List.length_nil]
      omega
    rw [hgoal]
  have e3 : List.findIdx? (fun c => c == '{') L 0 =
      some (name.data.length + dg.length + 2) := by
    have hshape : L = ((name.data ++ '[' :: dg) ++ [']']) ++ '{' :: (ic ++ '}' :: T) := by
      simp [hL]
    have hpre : ∀ x ∈ (name.data ++ '[' :: dg) ++ [']'], ((x == '{') = false) := by
      intro x hx
      simp only [List.mem_append, List.mem_cons, List.mem_singleton,
        List.not_mem_nil, or_false] at hx
      simp only [beq_eq_false_iff_ne, ne_eq]
      rcases hx with (h | h | h) | h
      · exact fun hh => hnm3 (hh ▸ h)
      · subst h; decide
      · exact (digit_ne x (hdig x h)).2.2.1
      · subst h; decide
    rw [hshape, findIdx?_first (fun c => c == '{') _ '{' _ hpre (by simp) 0]
    have hgoal : ((name.data ++ '[' :: dg) ++ [']']).length + 0 =
        name.data.length + dg.length + 2 := by
      simp only [List.length_append, List.length_cons, List.length_nil]
      omega
    rw [hgoal]
  have e4 : List.findIdx? (fun c => c == '}') L 0 =
      some (name.data.length + dg.length + 3 + ic.length) := by
    have hshape : L = (((name.data ++ '[' :: dg) ++ [']', '{']) ++ ic) ++ '}' :: T := by
      simp [hL]
    have hpre : ∀ x ∈ ((name.data ++ '[' :: dg) ++ [']', '{']) ++ ic,
        ((x == '}') = false) := by
      intro x hx
      simp only [List.mem_append, List.mem_cons, List.not_mem_nil, or_false] at hx
      simp only [beq_eq_false_iff_ne, ne_eq]
      rcases hx with ((h | h | h) | h | h) | h
      · exact fun hh => hnm4 (hh ▸ h)
      · subst h; decide
      · exact (digit_ne x (hdig x h)).2.2.2.1
      · subst h; decide
      · subst h; decide
      · rcases hicmem x h with rfl | ⟨f, hf, hcf⟩
        · decide
        · exact fun hh => (hfields f hf).2.1 (hh ▸ hcf)
    rw [hshape, findIdx?_first (fun c => c == '}') _ '}' _ hpre (by simp) 0]
    have hgoal : ((((name.data ++ '[' :: dg) ++ [']', '{']) ++ ic)).length + 0 =
        name.data.length + dg.length + 3 + ic.length := by
      simp only [List.length_append, List.length_cons, List.length_nil]
      omega
    rw [hgoal]
  have ecnt : (L.drop (name.data.length + 1)).take (name.data.length + dg.length + 1 -
      name.data.length - 1) = dg := by
    have hshape : L = (name.data ++ ['[']) ++ (dg ++ ((']' :: '{' :: ic) ++ '}' :: T)) := by
      simp [hL]
    rw [hshape]
    rw [show name.data.length + 1 = (name.data ++ ['[']).length + 0 from by simp]
    rw [List.drop_append 0]
    simp only [List.drop_zero]
    rw [show name.data.length + dg.length + 1 - name.data.length - 1 = dg.length from by omega]
    exact List.take_left dg _
  have esch : (L.drop (name.data.length + dg.length + 2 + 1)).take
      (name.data.length + dg.length + 3 + ic.length - (name.data.length + dg.length + 2) - 1)
      = ic := by
    have hshape : L = ((name.data ++ '[' :: dg) ++ [']', '{']) ++ (ic ++ ('}' :: T)) := by
      simp [hL]
    rw [show name.data.length + dg.length + 3 + ic.length -
      (name.data.length + dg.length + 2) - 1 = ic.length from by omega]
    rw [show name.data.length + dg.length + 2 + 1 =
      ((name.data ++ '[' :: dg) ++ [']', '{']).length + 0 from by
        simp only [List.length_append, List.length_cons, List.length_nil]
        omega]
    rw [hshape, List.drop_append 0]
    simp only [List.drop_zero]
    exact List.take_left ic _
  unfold ParseHeader
  have hdata : (String.mk L).data = L := rfl
  rw [hdata, e1, e2, e3, e4]
  simp only []
  rw [if_neg (show ¬(name.data.length + dg.length + 1 < name.data.length) from by omega)]
  rw [ecnt]
  rw [hdg_def, goParseInt_natToChars n hn]
  rw [← hdg_def]
  simp only []
  rw [if_neg (show ¬(name.data.length + dg.length + 3 + ic.length <
    name.data.length + dg.length + 2) from by omega)]
  rw [esch]
  rw [hic_def]
  rw [splitOnChar_intercalate ',' (schema.map String.data)
    (by rw [htl]; simp)
    (by intro f hf
        rcases List.mem_map.mp hf with ⟨g, hg, rfl⟩
        exact (hfields g hg).1)]
  have hmapmk : (schema.map String.data).map String.mk = schema := by
    rw [List.map_map]
    have : (String.mk ∘ String.data) = id := by
      funext s; cases s; rfl
    rw [this, List.map_id]
  rw [hmapmk]
  rw [htl]
  simp [List.findIdx?]


/-- Escaping never emits a line break character. -/
theorem escChar_no_ctrl (c : Char) : ∀ x ∈ escChar c, x ≠ '\n' ∧ x ≠ '\r' := by
  intro x hx
  unfold escChar at hx
  by_cases h1 : c = '\\'
  · simp [h1] at hx; subst hx; decide
  · by_cases h2 : c = ','
    · simp [h1, h2] at hx
      rcases hx with rfl | rfl <;> decide
    · by_cases h3 : c = '\n'
      · simp [h1, h2, h3] at hx
        rcases hx with rfl | rfl <;> decide
      · by_cases h4 : c = '\r'
        · simp [h1, h2, h3, h4] at hx
          rcases hx with rfl | rfl <;> decide
        · simp [h1, h2, h3, h4] at hx
          subst hx
          exact ⟨h3, h4⟩

/-- Escaped text contains no LF and no CR. -/
theorem escapeTOON_no_ctrl (s : String) :
    '\n' ∉ (escapeTOON s).data ∧ '\r' ∉ (escapeTOON s).data := by
  constructor <;>
  · intro hmem
    unfold escapeTOON at hmem
    rcases List.mem_flatMap.mp hmem with ⟨c, _, hc⟩
    have := escChar_no_ctrl c _ hc
    simp at this

/-- An encoded row body contains no LF and no CR. -/
theorem rowBody_no_ctrl (schema : List String) (d : Document) :
    '\n' ∉ rowBody schema d ∧ '\r' ∉ rowBody schema d := by
  constructor <;>
  · intro hmem
    unfold rowBody at hmem
    rcases mem_intercalate_sep ',' _ _ hmem with h | ⟨f, hf, hcf⟩
    · cases h
    · rcases List.mem_map.mp hf with ⟨g, _, rfl⟩
      rcases escapeTOON_no_ctrl g with ⟨hn, hr⟩
      first
        | exact hn hcf
        | exact hr hcf

/-- One scanner step over an encoded row yields its body and the remaining input. -/
theorem takeLine_rowChars (schema : List String) (d : Document) (rest : List Char) :
    takeLine (rowChars schema d ++ rest) = some (rowBody schema d, rest) := by
  unfold rowChars
  rw [List.append_assoc]
  exact takeLine_append _ _ (rowBody_no_ctrl schema d).1 (rowBody_no_ctrl schema d).2

/-- Parsing an encoded row body recovers the rendered field texts. -/
theorem parseTOONRow_rowBody (schema : List String) (d : Document) (h : schema ≠ []) :
    parseTOONRow (String.mk (rowBody schema d)) = rowStrings schema d := by
  have hrs : rowStrings schema d ≠ [] := by
    unfold rowStrings
    intro hh
    exact h (List.map_eq_nil_iff.mp hh)
  unfold rowBody
  exact parseRow_escape_fields (rowStrings schema d) hrs


/-- The first rendered field of a row under an id-first schema is the record key. -/
theorem rowStrings_cons (tl : List String) (d : Document) :
    rowStrings ("id" :: tl) d = renderId d :: tl.map (fun k => renderOpt (docGet d k)) := by
  simp [rowStrings, renderId]

/-- The single-key row scan over encoder-produced rows returns the first record whose key matches, rebuilt through type inference. -/
theorem decodeRows_encode (tl : List String) (k : String) :
    ∀ (docs : List Document) (rest : List Char),
      decodeRows ("id" :: tl) 0 k docs.length
          ((docs.map (rowChars ("id" :: tl))).flatten ++ rest) =
        .ok ((docs.find? (fun d => renderId d == k)).map
          (fun d => buildDoc ("id" :: tl) (rowStrings ("id" :: tl) d))) := by
  intro docs
  induction docs with
  | nil => intro rest; simp [decodeRows]
  | cons d ds ih =>
    intro rest
    have hflat : ((d :: ds).map (rowChars ("id" :: tl))).flatten ++ rest =
        rowChars ("id" :: tl) d ++ (((ds.map (rowChars ("id" :: tl))).flatten) ++ rest) := by
      simp
    rw [show (d :: ds).length = ds.length + 1 from rfl, hflat]
    unfold decodeRows
    rw [takeLine_rowChars]
    simp only []
    rw [parseTOONRow_rowBody _ _ (by simp)]
    have hlen : (rowStrings ("id" :: tl) d).length = ("id" :: tl).length := by
      simp [rowStrings]
    rw [if_neg (by rw [hlen]; exact fun hh => absurd rfl hh)]
    have hget : (rowStrings ("id" :: tl) d).getD 0 "" = renderId d := by
      rw [rowStrings_cons]; rfl
    rw [hget]
    by_cases hk : renderId d == k
    · rw [if_pos hk]
      rw [List.find?_cons]
      rw [hk]
      rfl
    · rw [if_neg (by simpa using hk)]
      rw [List.find?_cons]
      have hkf : (renderId d == k) = false := by simpa using hk
      simp only [hkf]
      exact ih rest

/-- The fast-path id extraction over encoder-produced rows returns each row prefix up to the first comma. -/
theorem extractRows_encode (tl : List String) :
    ∀ (docs : List Document) (rest : List Char) (acc : List String),
      extractRows 0 docs.length
          ((docs.map (rowChars ("id" :: tl))).flatten ++ rest) acc =
        .ok (acc ++ docs.map (rowKey ("id" :: tl))) := by
  intro docs
  induction docs with
  | nil => intro rest acc; simp [extractRows]
  | cons d ds ih =>
    intro rest acc
    have hflat : ((d :: ds).map (rowChars ("id" :: tl))).flatten ++ rest =
        rowChars ("id" :: tl) d ++ (((ds.map (rowChars ("id" :: tl))).flatten) ++ rest) := by
      simp
    rw [show (d :: ds).length = ds.length + 1 from rfl, hflat]
    unfold extractRows
    rw [takeLine_rowChars]
    simp only [if_pos]
    rw [ih]
    have : String.mk ((rowBody ("id" :: tl) d).takeWhile (fun c => !(c == ','))) =
        rowKey ("id" :: tl) d := rfl
    rw [this]
    simp


/-- A record carrying an id has `id` among its keys. -/
theorem id_mem_docKeys (d : Document) (h : (docGet d "id").isSome) : "id" ∈ docKeys d := by
  unfold docGet at h
  match hf : d.find? (fun p => p.1 == "id") with
  | none => rw [hf] at h; simp at h
  | some p =>
    have hmem := List.mem_of_find?_eq_some hf
    have hkey : p.1 = "id" := by
      have := List.find?_some hf
      simpa using this
    unfold docKeys
    rw [List.mem_dedup]
    exact hkey ▸ List.mem_map_of_mem (fun q => q.1) hmem

/-- The unified schema of a batch whose records all carry an id starts with `id`. -/
theorem batchSchema_cons (docs : List Document) (hne : docs ≠ [])
    (hid : ∀ d ∈ docs, (docGet d "id").isSome) :
    ∃ t, batchSchema docs = "id" :: t := by
  apply sortSchema_head_id
  rw [List.mem_dedup]
  cases docs with
  | nil => exact absurd rfl hne
  | cons d ds =>
    apply List.mem_flatten.mpr
    exact ⟨docKeys d, by simp, id_mem_docKeys d (hid d (by simp))⟩

/-- Every unified-schema field of a batch of clean records is clean. -/
theorem batchSchema_goodFields (docs : List Document) (hgood : ∀ d ∈ docs, goodDoc d) :
    ∀ f ∈ batchSchema docs, goodField f := by
  intro f hf
  unfold batchSchema at hf
  rw [mem_sortSchema, List.mem_dedup] at hf
  rcases List.mem_flatten.mp hf with ⟨kl, hkl, hfkl⟩
  rcases List.mem_map.mp hkl with ⟨d, hd, rfl⟩
  unfold docKeys at hfkl
  rw [List.mem_dedup] at hfkl
  rcases List.mem_map.mp hfkl with ⟨p, hp, rfl⟩
  exact (hgood d hd).2 p hp

/-- The header text of a clean batch contains no LF and no CR. -/
theorem headerText_clean (name : String) (n : Nat) (schema : List String)
    (hname : goodName name) (hfields : ∀ f ∈ schema, goodField f) :
    '\n' ∉ headerText name n schema ∧ '\r' ∉ headerText name n schema := by
  obtain ⟨_, _, _, _, hnm5, hnm6, _⟩ := hname
  constructor <;>
  · intro hmem
    unfold headerText at hmem
    simp only [List.mem_append, List.mem_cons, List.not_mem_nil, or_false] at hmem
    rcases hmem with ((h | h | h) | h | h | h) | h | h
    · first
        | exact hnm5 h
        | exact hnm6 h
    · cases h
    · have := (digit_ne _ (natToChars_digits n _ h))
      first
        | exact absurd rfl this.2.2.2.2.2.1
        | exact absurd rfl this.2.2.2.2.2.2
    · cases h
    · cases h
    · rcases mem_intercalate_sep ',' _ _ h with h2 | ⟨fd, hfd, hcf⟩
      · cases h2
      · rcases List.mem_map.mp hfd with ⟨g, hg, rfl⟩
        first
          | exact (hfields g hg).2.2.1 hcf
          | exact (hfields g hg).2.2.2 hcf
    · cases h
    · cases h


/-- The first scanner step over an encoded block yields the header text and the row bytes. -/
theorem takeLine_encodeBytes (name : String) (docs : List Document) (rest : List Char)
    (hname : goodName name) (hgood : ∀ d ∈ docs, goodDoc d) :
    takeLine (encodeBytes name docs ++ rest) =
      some (headerText name docs.length (batchSchema docs),
        (docs.map (rowChars (batchSchema docs))).flatten ++ rest) := by
  have hclean := headerText_clean name docs.length (batchSchema docs) hname
    (batchSchema_goodFields docs hgood)
  unfold encodeBytes headerChars
  rw [show (headerText name docs.length (batchSchema docs) ++ ['\n']) ++
      (docs.map (rowChars (batchSchema docs))).flatten ++ rest =
      headerText name docs.length (batchSchema docs) ++
        '\n' :: ((docs.map (rowChars (batchSchema docs))).flatten ++ rest) from by simp]
  exact takeLine_append _ _ hclean.1 hclean.2

/-- Single-key decode of an encoded batch returns the first record whose rendered id matches the key, rebuilt through rendering and type inference over the unified schema. -/
theorem Decode_encodeBytes (name : String) (docs : List Document) (k : String)
    (hne : docs ≠ []) (hgood : ∀ d ∈ docs, goodDoc d) (hname : goodName name)
    (hcount : docs.length < 2 ^ 63) :
    Decode (encodeBytes name docs) k =
      .ok ((docs.find? (fun d => renderId d == k)).map
        (fun d => buildDoc (batchSchema docs) (rowStrings (batchSchema docs) d))) := by
  obtain ⟨tl, htl⟩ := batchSchema_cons docs hne (fun d hd => (hgood d hd).1)
  rw [← List.append_nil (encodeBytes name docs)]
  unfold Decode
  rw [takeLine_encodeBytes name docs [] hname hgood]
  simp only []
  have hph : ParseHeader (String.mk (headerText name docs.length (batchSchema docs))) =
      .ok ((docs.length : Int), batchSchema docs, 0) := by
    unfold headerText
    rw [show name.data ++ '[' :: natToChars docs.length ++ ']' :: '{' ::
      List.intercalate [','] ((batchSchema docs).map String.data) ++ ['}', ':'] =
      name.data ++ '[' :: natToChars docs.length ++ ']' :: '{' ::
      List.intercalate [','] ((batchSchema docs).map String.data) ++ '}' :: [':'] from rfl]
    exact parseHeader_chars name docs.length (batchSchema docs) [':'] hname
      (batchSchema_goodFields docs hgood) hcount ⟨tl, htl⟩
  rw [hph]
  simp only [Int.toNat_ofNat]
  rw [htl]
  exact htl ▸ decodeRows_encode tl k docs []

/-- Key extraction over an encoded batch returns, for each record, the prefix of its escaped row up to the first comma. -/
theorem ExtractIDs_encodeBytes (name : String) (docs : List Document)
    (hne : docs ≠ []) (hgood : ∀ d ∈ docs, goodDoc d) (hname : goodName name)
    (hcount : docs.length < 2 ^ 63) :
    ExtractIDs (encodeBytes name docs) =
      .ok (docs.map (rowKey (batchSchema docs))) := by
  obtain ⟨tl, htl⟩ := batchSchema_cons docs hne (fun d hd => (hgood d hd).1)
  rw [← List.append_nil (encodeBytes name docs)]
  unfold ExtractIDs
  rw [takeLine_encodeBytes name docs [] hname hgood]
  simp only []
  have hph : ParseHeader (String.mk (headerText name docs.length (batchSchema docs))) =
      .ok ((docs.length : Int), batchSchema docs, 0) := by
    unfold headerText
    exact parseHeader_chars name docs.length (batchSchema docs) [':'] hname
      (batchSchema_goodFields docs hgood) hcount ⟨tl, htl⟩
  rw [hph]
  simp only [Int.toNat_ofNat]
  rw [htl]
  have := extractRows_encode tl docs [] []
  simpa using this


/-- Escaping is the identity on a character outside the escaped set. -/
theorem escChar_plain (c : Char) (h1 : c ≠ '\\') (h2 : c ≠ ',') (h3 : c ≠ '\n')
    (h4 : c ≠ '\r') : escChar c = [c] := by
  simp [escChar, h1, h2, h3, h4]

/-- Escaping is the identity on text free of the escaped characters. -/
theorem flatMap_escChar_plain (l : List Char) (h1 : '\\' ∉ l) (h2 : ',' ∉ l)
    (h3 : '\n' ∉ l) (h4 : '\r' ∉ l) : l.flatMap escChar = l := by
  induction l with
  | nil => rfl
  | cons c t ih =>
    have hc1 : c ≠ '\\' := fun hh => h1 (hh ▸ List.mem_cons_self c t)
    have hc2 : c ≠ ',' := fun hh => h2 (hh ▸ List.mem_cons_self c t)
    have hc3 : c ≠ '\n' := fun hh => h3 (hh ▸ List.mem_cons_self c t)
    have hc4 : c ≠ '\r' := fun hh => h4 (hh ▸ List.mem_cons_self c t)
    rw [List.flatMap_cons, escChar_plain c hc1 hc2 hc3 hc4,
      ih (fun hh => h1 (List.mem_cons_of_mem c hh))
        (fun hh => h2 (List.mem_cons_of_mem c hh))
        (fun hh => h3 (List.mem_cons_of_mem c hh))
        (fun hh => h4 (List.mem_cons_of_mem c hh))]
    rfl

/-- Escaping is the identity on a plain key. -/
theorem escapeTOON_plain (s : String) (h : plainKey s) : escapeTOON s = s := by
  obtain ⟨h1, h2, h3, h4⟩ := h
  unfold escapeTOON
  rw [flatMap_escChar_plain s.data h1 h2 h3 h4]

/-- The comma-prefix of comma-free text is the whole text. -/
theorem takeWhile_all_of_no_comma (l : List Char) (h : ',' ∉ l) :
    l.takeWhile (fun c => !(c == ',')) = l := by
  induction l with
  | nil => rfl
  | cons c t ih =>
    have hc : c ≠ ',' := fun hh => h (hh ▸ List.mem_cons_self c t)
    rw [List.takeWhile_cons]
    have hcb : (!(c == ',')) = true := by simpa using hc
    rw [hcb]
    simp only [if_true]
    rw [ih (fun hh => h (List.mem_cons_of_mem c hh))]

/-- The comma-prefix stops exactly at the first comma. -/
theorem takeWhile_prefix_comma (l1 r : List Char) (h : ',' ∉ l1) :
    (l1 ++ ',' :: r).takeWhile (fun c => !(c == ',')) = l1 := by
  induction l1 with
  | nil => simp [List.takeWhile_cons]
  | cons c t ih =>
    have hc : c ≠ ',' := fun hh => h (hh ▸ List.mem_cons_self c t)
    rw [List.cons_append, List.takeWhile_cons]
    have hcb : (!(c == ',')) = true := by simpa using hc
    rw [hcb]
    simp only [if_true]
    rw [ih (fun hh => h (List.mem_cons_of_mem c hh))]


/-- The fast-path row key of a record with a plain id equals the rendered id. -/
theorem rowKey_plain (tl : List String) (d : Document) (hplain : plainKey (renderId d)) :
    rowKey ("id" :: tl) d = renderId d := by
  unfold rowKey rowBody
  rw [rowStrings_cons]
  cases tl with
  | nil =>
    have h1 : List.intercalate [','] ((renderId d :: List.map
        (fun k => renderOpt (docGet d k)) []).map (fun f => (escapeTOON f).data)) =
        (escapeTOON (renderId d)).data := by
      simp [List.intercalate]
    rw [h1, escapeTOON_plain _ hplain]
    have : (renderId d).data.takeWhile (fun c => !(c == ',')) = (renderId d).data :=
      takeWhile_all_of_no_comma _ hplain.2.1
    rw [this]
  | cons g gs =>
    have h1 : List.intercalate [','] ((renderId d :: List.map
        (fun k => renderOpt (docGet d k)) (g :: gs)).map (fun f => (escapeTOON f).data)) =
        (escapeTOON (renderId d)).data ++ ',' :: List.intercalate [',']
          ((List.map (fun k => renderOpt (docGet d k)) (g :: gs)).map
            (fun f => (escapeTOON f).data)) := by
      simp [List.intercalate, List.intersperse]
    rw [h1, escapeTOON_plain _ hplain]
    rw [takeWhile_prefix_comma _ _ hplain.2.1]

/-- C4, amended: the recovery fast path takes each row prefix up to the first comma of the escaped row; when every id text contains none of the characters the row encoding escapes, the extracted keys equal the ids as indexed at commit time. -/
theorem claim4_extract_fast_path (name : String) (docs : List Document)
    (hne : docs ≠ []) (hgood : ∀ d ∈ docs, goodDoc d) (hname : goodName name)
    (hcount : docs.length < 2 ^ 63)
    (hplain : ∀ d ∈ docs, plainKey (renderId d)) :
    ExtractIDs (encodeBytes name docs) = .ok (docs.map renderId) := by
  rw [ExtractIDs_encodeBytes name docs hne hgood hname hcount]
  obtain ⟨tl, htl⟩ := batchSchema_cons docs hne (fun d hd => (hgood d hd).1)
  congr 1
  rw [htl]
  exact List.map_congr_left (fun d hd => rowKey_plain tl d (hplain d hd))

/-- C4, counterexample: for the id text `a,b` the commit-time key is `a,b` but the fast path extracts `a\` (the escaped row starts `a\,b,...` and the split is escape-blind), so the extracted key differs from the indexed id. -/
theorem claim4_counterexample :
    ExtractIDs (encodeBytes "t" [commaDocA]) = .ok ["a\\"] ∧
      renderId commaDocA = "a,b" ∧ ("a\\" : String) ≠ "a,b" := by
  refine ⟨by decide, by decide, by decide⟩

/-- C4, witness: fast-path extraction over a two-record batch with plain ids returns the commit keys. -/
theorem claim4_witness :
    ExtractIDs (encodeBytes "t" [exDocA, exDocB]) = .ok ["k1", "k1"] := by
  have h := claim4_extract_fast_path "t" [exDocA, exDocB] (by decide)
    (by decide) (by decide) (by decide) (by decide)
  simpa using h

end FlyDB

open FlyDB
namespace FlyDB

theorem zip_self_map (F : String → String) (l : List String) :
    l.zip (l.map F) = l.map fun a => (a, F a) := by
  have := List.zip_map' id F l
  simpa using this

theorem docSet_append_of_not_mem (l : Document) (k : String) (v : Value)
    (h : l.any (fun p => p.1 == k) = false) : docSet l k v = l ++ [(k, v)] := by
  unfold docSet
  rw [h]
  simp

theorem buildDoc_keyMap (schema : List String) (F : String → String)
    (hnd : schema.Nodup) :
    buildDoc schema (schema.map F) = schema.map (fun f => (f, inferType (F f))) := by
  unfold buildDoc
  rw [zip_self_map]
  suffices haux : ∀ (l : List String) (acc : Document), l.Nodup →
      (∀ f ∈ l, acc.any (fun p => p.1 == f) = false) →
      (l.map (fun a => (a, F a))).foldl (fun d p => docSet d p.1 (inferType p.2)) acc =
        acc ++ l.map (fun f => (f, inferType (F f))) by
    have := haux schema [] hnd (fun f _ => rfl)
    simpa using this
  intro l
  induction l with
  | nil => intro acc _ _; simp
  | cons f t ih =>
    intro acc hnd2 hacc
    rw [List.map_cons, List.foldl_cons]
    rw [docSet_append_of_not_mem acc f (inferType (F f)) (hacc f (by simp))]
    rw [ih (acc ++ [(f, inferType (F f))]) (List.Nodup.of_cons hnd2) ?_]
    · simp
    · intro g hg
      rw [List.any_append]
      rw [hacc g (List.mem_cons_of_mem f hg)]
      simp only [Bool.false_or, List.any_cons, List.any_nil, Bool.or_false]
      have : f ≠ g := fun hh => (List.nodup_cons.mp hnd2).1 (hh ▸ hg)
      simpa using this

theorem docGet_keyMap (G : String → Value) (schema : List String) (f : String) :
    docGet (schema.map (fun g => (g, G g))) f =
      if f ∈ schema then some (G f) else none := by
  induction schema with
  | nil => simp [docGet]
  | cons g t ih =>
    by_cases hgf : g = f
    · subst hgf
      simp [docGet, List.find?_cons]
    · unfold docGet at ih ⊢
      rw [List.map_cons, List.find?_cons]
      have : ((g, G g).1 == f) = false := by simpa using hgf
      rw [this]
      rw [ih]
      by_cases hft : f ∈ t
      · rw [if_pos hft, if_pos (List.mem_cons_of_mem g hft)]
      · rw [if_neg hft, if_neg ?_]
        intro hh
        rcases List.mem_cons.mp hh with hh2 | hh2
        · exact hgf hh2.symm
        · exact hft hh2


theorem docGet_some_mem (d : Document) (k : String) (v : Value)
    (h : docGet d k = some v) : ∃ p ∈ d, p.1 = k ∧ p.2 = v := by
  unfold docGet at h
  match hf : d.find? (fun p => p.1 == k) with
  | none => rw [hf] at h; cases h
  | some p =>
    rw [hf] at h
    have hp := List.mem_of_find?_eq_some hf
    have hk : p.1 = k := by simpa using List.find?_some hf
    have hv : p.2 = v := by simpa using h
    exact ⟨p, hp, hk, hv⟩

theorem buildDoc_eqv (schema : List String) (d : Document)
    (hnd : schema.Nodup)
    (hspan : ∀ f ∈ schema, (docGet d f).isSome)
    (hstable : ∀ p ∈ d, stableValue p.2)
    (hkeys : ∀ f, (docGet d f).isSome → f ∈ schema) :
    docEqv (buildDoc schema (rowStrings schema d)) d := by
  intro k
  unfold rowStrings
  rw [buildDoc_keyMap schema (fun f => renderOpt (docGet d f)) hnd]
  rw [docGet_keyMap]
  by_cases hk : k ∈ schema
  · rw [if_pos hk]
    match hv : docGet d k with
    | none =>
      have := hspan k hk
      rw [hv] at this
      cases this
    | some v =>
      rcases docGet_some_mem d k v hv with ⟨p, hp, _, hpv⟩
      have hs : stableValue v := hpv ▸ hstable p hp
      show some (inferType (renderValue v)) = some v
      rw [hs]
  · rw [if_neg hk]
    match hv : docGet d k with
    | none => rfl
    | some v =>
      exact absurd (hkeys k (by rw [hv]; rfl)) hk

theorem idxSet_eq_append (m : IndexMap) (k : String) (info : BlockInfo)
    (h : m.any (fun p => p.1 == k) = false) : idxSet m k info = m ++ [(k, info)] := by
  unfold idxSet
  rw [h]
  simp

theorem idxGet_set_self (m : IndexMap) (k : String) (info : BlockInfo) :
    idxGet (idxSet m k info) k = some info := by
  by_cases h : m.any (fun p => p.1 == k)
  · unfold idxSet
    rw [h]
    simp only [if_true]
    induction m with
    | nil => simp at h
    | cons q t ih =>
      by_cases hq : q.1 == k
      · unfold idxGet
        rw [List.map_cons, List.find?_cons]
        simp only [hq, if_true]
        simp
      · have ht : t.any (fun p => p.1 == k) = true := by
          rcases List.any_eq_true.mp h with ⟨x, hx, hpx⟩
          rcases List.mem_cons.mp hx with rfl | hx2
          · exact absurd hpx (by simpa using hq)
          · exact List.any_eq_true.mpr ⟨x, hx2, hpx⟩
        unfold idxGet at ih ⊢
        rw [List.map_cons,
          if_neg (show ¬((q.1 == k) = true) from by simpa using hq),
          List.find?_cons]
        rw [show (q.1 == k) = false from by simpa using hq]
        exact ih ht
  · rw [idxSet_eq_append m k info (Bool.eq_false_iff.mpr h)]
    unfold idxGet
    rw [List.find?_append]
    have hany : ∀ x ∈ m, ¬((x.1 == k) = true) :=
      List.any_eq_false.mp (Bool.eq_false_iff.mpr h)
    rw [List.find?_eq_none.mpr hany]
    simp [List.find?_cons]

theorem find?_map_replace (t : List (String × BlockInfo)) (k k' : String)
    (info : BlockInfo) (h : k' ≠ k) :
    List.find? (fun p => p.1 == k)
        (t.map (fun p => if p.1 == k' then (k', info) else p)) =
      List.find? (fun p => p.1 == k) t := by
  induction t with
  | nil => rfl
  | cons q t ih =>
    rw [List.map_cons, List.find?_cons, List.find?_cons]
    by_cases hq : q.1 == k'
    · rw [if_pos hq]
      rw [show (((k', info) : String × BlockInfo).1 == k) = false from by simpa using h]
      have h2 : (q.1 == k) = false := by
        have hz : q.1 = k' := by simpa using hq
        rw [hz]
        simpa using h
      rw [h2]
      simp only []
      exact ih
    · rw [if_neg hq]
      by_cases h2 : q.1 == k
      · rw [h2]
      · rw [show (q.1 == k) = false from by simpa using h2]
        simp only []
        exact ih

theorem idxGet_set_other (m : IndexMap) (k k' : String) (info : BlockInfo)
    (h : k' ≠ k) : idxGet (idxSet m k' info) k = idxGet m k := by
  by_cases hm : m.any (fun p => p.1 == k')
  · unfold idxSet
    rw [hm]
    simp only [if_true]
    unfold idxGet
    rw [find?_map_replace m k k' info h]
  · rw [idxSet_eq_append m k' info (Bool.eq_false_iff.mpr hm)]
    unfold idxGet
    rw [List.find?_append]
    match hf : m.find? (fun p => p.1 == k) with
    | some p => rw [hf]; rfl
    | none =>
      rw [hf]
      simp only [Option.none_or]
      rw [List.find?_cons]
      have : (((k', info) : String × BlockInfo).1 == k) = false := by simpa using h
      rw [this]
      simp [List.find?_nil]

theorem idxGet_foldSet (docs : List Document) (info : BlockInfo) (m : IndexMap)
    (k : String) :
    idxGet (docs.foldl (fun m d => idxSet m (renderId d) info) m) k =
      if docs.any (fun d => renderId d == k) then some info else idxGet m k := by
  induction docs generalizing m with
  | nil => simp
  | cons d ds ih =>
    rw [List.foldl_cons, ih, List.any_cons]
    by_cases hd : renderId d == k
    · by_cases hds : ds.any (fun d => renderId d == k)
      · rw [hds]
        simp [hd]
      · rw [Bool.eq_false_iff.mpr hds]
        simp only [Bool.or_false, hd, if_true]
        have : renderId d = k := by simpa using hd
        rw [this, idxGet_set_self]
        simp
    · by_cases hds : ds.any (fun d => renderId d == k)
      · rw [hds]
        simp [hd]
      · rw [Bool.eq_false_iff.mpr hds]
        simp only [hd, Bool.false_or, if_false]
        rw [idxGet_set_other m k (renderId d) info (by simpa using hd)]


end FlyDB

open FlyDB
namespace FlyDB

theorem takeWhile_replicate_stop (n : Nat) (t : List Char) :
    ((List.replicate n 'u' ++ 'z' :: t).takeWhile (fun c => c == 'u')) =
      List.replicate n 'u' := by
  induction n with
  | zero => simp [List.takeWhile_cons]
  | succ n ih => simp only [List.replicate_succ, List.cons_append, List.takeWhile_cons]; simp [ih]

theorem unitGzip_lawful : LawfulGzip unitGzip := by
  constructor
  · intro x
    rcases List.exists_cons_of_ne_nil
      (show (List.replicate x.length 'u' ++ 'z' :: x) ≠ [] by simp) with ⟨c, rest, hc⟩
    exact ⟨c, rest, by simp only [unitGzip, hc]⟩
  · intro x
    show (match gzByte1 :: gzByte2 :: (List.replicate x.length 'u' ++ 'z' :: x) with
      | g1 :: g2 :: rest =>
        if g1 = gzByte1 && g2 = gzByte2 then
          let n := rest.takeWhile (fun c => c == 'u') |>.length
          match rest.drop n with
          | 'z' :: body => if body.length = n then some (body.take n) else none
          | _ => none
        else none
      | _ => none) = some x
    simp only []
    rw [if_pos (by simp)]
    rw [takeWhile_replicate_stop]
    rw [List.length_replicate]
    rw [List.drop_left' (List.length_replicate x.length 'u')]
    simp only []
    simp
  · intro x rest
    show (match (gzByte1 :: gzByte2 :: (List.replicate x.length 'u' ++ 'z' :: x)) ++ rest with
      | g1 :: g2 :: r =>
        if g1 = gzByte1 && g2 = gzByte2 then
          let n := r.takeWhile (fun c => c == 'u') |>.length
          match r.drop n with
          | 'z' :: body =>
            if n ≤ body.length then some (body.take n, n + n + 3) else none
          | _ => none
        else none
      | _ => none) = some (x, (unitGzip.compress x).length)
    have hsh : (gzByte1 :: gzByte2 :: (List.replicate x.length 'u' ++ 'z' :: x)) ++ rest =
        gzByte1 :: gzByte2 :: (List.replicate x.length 'u' ++ 'z' :: (x ++ rest)) := by
      simp
    rw [hsh]
    simp only []
    rw [if_pos (by simp)]
    rw [takeWhile_replicate_stop]
    rw [List.length_replicate]
    rw [List.drop_left' (List.length_replicate x.length 'u')]
    simp only []
    rw [if_pos (by simp)]
    rw [List.take_left]
    have hlen : (unitGzip.compress x).length = x.length + x.length + 3 := by
      simp [unitGzip]
      omega
    rw [hlen]

end FlyDB

open FlyDB
namespace FlyDB

theorem Encode_ok (name : String) (docs : List Document)
    (hne : docs ≠ []) (hid : ∀ d ∈ docs, (docGet d "id").isSome) :
    Encode name docs = .ok (encodeBytes name docs) := by
  unfold Encode
  rw [if_neg (by simp [hne])]
  rw [if_neg ?_]
  intro h
  rcases List.any_eq_true.mp h with ⟨d, hd, hh⟩
  have h2 := hid d hd
  simp only [Option.isNone_iff_eq_none] at hh
  rw [hh] at h2
  cases h2

theorem docGet_docSet_self (m : Document) (k : String) (v : Value) :
    docGet (docSet m k v) k = some v := by
  by_cases h : m.any (fun p => p.1 == k)
  · unfold docSet
    rw [h]
    simp only [if_true]
    induction m with
    | nil => simp at h
    | cons q t ih =>
      by_cases hq : q.1 == k
      · unfold docGet
        rw [List.map_cons, List.find?_cons]
        simp only [hq, if_true]
        simp
      · have ht : t.any (fun p => p.1 == k) = true := by
          rcases List.any_eq_true.mp h with ⟨x, hx, hpx⟩
          rcases List.mem_cons.mp hx with rfl | hx2
          · exact absurd hpx (by simpa using hq)
          · exact List.any_eq_true.mpr ⟨x, hx2, hpx⟩
        unfold docGet at ih ⊢
        rw [List.map_cons,
          if_neg (show ¬((q.1 == k) = true) from by simpa using hq),
          List.find?_cons]
        rw [show (q.1 == k) = false from by simpa using hq]
        exact ih ht
  · rw [docSet_append_of_not_mem m k v (Bool.eq_false_iff.mpr h)]
    unfold docGet
    rw [List.find?_append]
    have hany : ∀ x ∈ m, ¬((x.1 == k) = true) :=
      List.any_eq_false.mp (Bool.eq_false_iff.mpr h)
    rw [List.find?_eq_none.mpr hany]
    simp [List.find?_cons]

theorem docGet_coerceId_id (d : Document) (h : (docGet d "id").isSome) :
    ∃ s, docGet (coerceId d) "id" = some (.vText s) := by
  unfold coerceId
  match hv : docGet d "id" with
  | none => rw [hv] at h; cases h
  | some v =>
    cases v with
    | vText s => exact ⟨s, hv⟩
    | vInt n => exact ⟨_, docGet_docSet_self d "id" _⟩
    | vFloat f => exact ⟨_, docGet_docSet_self d "id" _⟩
    | vBool b => exact ⟨_, docGet_docSet_self d "id" _⟩

theorem Insert_ok (d : Document) (c : Collection) (hcl : c.closed = false)
    (hid : (docGet d "id").isSome) :
    ∃ k, Insert d c = .ok (k, { c with memtable := c.memtable ++ [coerceId d] }) := by
  unfold Insert coerceId
  match hv : docGet d "id" with
  | none => rw [hv] at hid; cases hid
  | some v =>
    cases v with
    | vText s =>
      refine ⟨s, ?_⟩
      simp only []
      rw [if_neg (by simp [hcl])]
    | vInt n =>
      refine ⟨renderValue (Value.vInt n), ?_⟩
      simp only []
      rw [if_neg (by simp [hcl])]
    | vFloat f =>
      refine ⟨renderValue (Value.vFloat f), ?_⟩
      simp only []
      rw [if_neg (by simp [hcl])]
    | vBool b =>
      refine ⟨renderValue (Value.vBool b), ?_⟩
      simp only []
      rw [if_neg (by simp [hcl])]

theorem insertAll_success (batch : List Document) :
    ∀ c : Collection, c.closed = false →
    (∀ d ∈ batch, (docGet d "id").isSome) →
    insertAll batch c = .ok { c with memtable := c.memtable ++ batch.map coerceId } := by
  induction batch with
  | nil =>
    intro c _ _
    simp only [insertAll, List.foldlM_nil, List.map_nil, List.append_nil]
    rfl
  | cons d t ih =>
    intro c hcl hid
    unfold insertAll
    rw [List.foldlM_cons]
    rcases Insert_ok d c hcl (hid d (by simp)) with ⟨k, hk⟩
    rw [hk]
    have ih2 := ih { c with memtable := c.memtable ++ [coerceId d] } hcl
      (fun x hx => hid x (List.mem_cons_of_mem d hx))
    unfold insertAll at ih2
    simp only [Except.map]
    show t.foldlM (fun c d => (Insert d c).map (fun p => p.2))
      { c with memtable := c.memtable ++ [coerceId d] } = _
    rw [ih2]
    simp

theorem Commit_empty (G : GzipModel) (o : DiskOracle) (c : Collection)
    (hcl : c.closed = false) (hm : c.memtable = []) :
    Commit G o c = (.ok (), c) := by
  unfold Commit
  rw [if_neg (by simp [hcl]), if_pos (by simp [hm])]

theorem Commit_success (G : GzipModel) (c : Collection)
    (hcl : c.closed = false)
    (hne : c.memtable ≠ [])
    (hid : ∀ d ∈ c.memtable, (docGet d "id").isSome) :
    Commit G happyDisk c =
      (.ok (), { c with
        fileData := c.fileData ++
          (if c.compression then G.compress (encodeBytes c.name c.memtable)
           else encodeBytes c.name c.memtable),
        index := c.memtable.foldl (fun m d => idxSet m (renderId d)
          ⟨c.fileData.length,
           (if c.compression then G.compress (encodeBytes c.name c.memtable)
            else encodeBytes c.name c.memtable).length⟩) c.index,
        memtable := [] }) := by
  unfold Commit
  rw [if_neg (by simp [hcl]), if_neg (by simp [hne])]
  rw [Encode_ok c.name c.memtable hne hid]
  simp [happyDisk]

end FlyDB

open FlyDB
namespace FlyDB

theorem except_bind_ok {a b : Type} (x : a) (f : a → Except Err b) :
    ((Except.ok x : Except Err a) >>= f) = f x := rfl

theorem runRound_state (G : GzipModel) (r : Bool × List Document) (c : Collection)
    (hcl : c.closed = false) (hmem : c.memtable = [])
    (hid : ∀ d ∈ r.2, (docGet d "id").isSome) :
    runRound G r c = .ok { c with
      compression := r.1,
      fileData := c.fileData ++ roundBytes G c.name r,
      index := if r.2.isEmpty then c.index else
        (r.2.map coerceId).foldl
          (fun m d => idxSet m (renderId d)
            ⟨c.fileData.length, (roundBytes G c.name r).length⟩) c.index,
      memtable := [] } := by
  have hid2 : ∀ d ∈ r.2.map coerceId, (docGet d "id").isSome := by
    intro d hd
    rcases List.mem_map.mp hd with ⟨d0, hd0, rfl⟩
    rcases docGet_coerceId_id d0 (hid d0 hd0) with ⟨s, hs⟩
    rw [hs]
    rfl
  unfold runRound
  rw [insertAll_success r.2 (SetCompression r.1 c) (by simp [SetCompression, hcl]) hid]
  have hcmid : ({ SetCompression r.1 c with
      memtable := (SetCompression r.1 c).memtable ++ r.2.map coerceId } : Collection) =
      { c with compression := r.1, memtable := r.2.map coerceId } := by
    simp [SetCompression, hmem]
  rw [hcmid]
  by_cases hre : r.2.isEmpty
  · have hbe : r.2 = [] := by simpa using hre
    rw [except_bind_ok]
    simp only []
    rw [Commit_empty G happyDisk
      { c with compression := r.1, memtable := r.2.map coerceId } hcl (by simp [hbe])]
    simp only []
    refine congrArg Except.ok ?_
    simp [roundBytes, hre, hbe, hmem]
  · have hbe : r.2 ≠ [] := by simpa using hre
    have hCS := Commit_success G { c with compression := r.1, memtable := r.2.map coerceId }
      hcl (by simpa using hbe) hid2
    rw [except_bind_ok]
    simp only []
    rw [hCS]
    simp only []
    refine congrArg Except.ok ?_
    have hW : (if r.1 then G.compress (encodeBytes c.name (r.2.map coerceId))
        else encodeBytes c.name (r.2.map coerceId)) = roundBytes G c.name r := by
      unfold roundBytes roundRaw
      rw [if_neg hre]
    rw [hW]
    simp [hre]

theorem roundBytes_empty (G : GzipModel) (name : String) (r : Bool × List Document)
    (h : r.2.isEmpty) : roundBytes G name r = [] := by
  unfold roundBytes
  rw [if_pos h]

theorem runRounds_state (G : GzipModel) (rounds : List (Bool × List Document))
    (hwf : ∀ r ∈ rounds, ∀ d ∈ r.2, (docGet d "id").isSome) :
    ∀ c : Collection, c.closed = false → c.memtable = [] →
    ∃ cf, runRounds G rounds c = .ok cf ∧
      cf.name = c.name ∧
      cf.fileData = c.fileData ++ (rounds.map (roundBytes G c.name)).flatten ∧
      cf.index = commitIndexOfRounds G c.name c.fileData.length rounds c.index ∧
      cf.memtable = [] ∧ cf.closed = false := by
  induction rounds with
  | nil =>
    intro c hcl hm
    exact ⟨c, rfl, rfl, by simp, rfl, hm, hcl⟩
  | cons r rest ih =>
    intro c hcl hm
    unfold runRounds
    rw [List.foldlM_cons]
    rw [runRound_state G r c hcl hm (hwf r (by simp))]
    rw [except_bind_ok]
    obtain ⟨cf, hcf, hname, hfile, hidx, hmem2, hcl2⟩ :=
      ih (fun rr hrr => hwf rr (List.mem_cons_of_mem r hrr))
        { c with
          compression := r.1,
          fileData := c.fileData ++ roundBytes G c.name r,
          index := if r.2.isEmpty then c.index else
            (r.2.map coerceId).foldl
              (fun m d => idxSet m (renderId d)
                ⟨c.fileData.length, (roundBytes G c.name r).length⟩) c.index,
          memtable := [] } hcl rfl
    unfold runRounds at hcf
    rw [hcf]
    refine ⟨cf, rfl, hname, ?_, ?_, hmem2, hcl2⟩
    · rw [hfile]
      simp
    · rw [hidx]
      show _ = (if r.2.isEmpty then
          commitIndexOfRounds G c.name c.fileData.length rest c.index
        else
          commitIndexOfRounds G c.name (c.fileData.length + (roundBytes G c.name r).length) rest
            ((r.2.map coerceId).foldl
              (fun m d => idxSet m (renderId d)
                ⟨c.fileData.length, (roundBytes G c.name r).length⟩) c.index))
      by_cases hre : r.2.isEmpty
      · rw [if_pos hre, if_pos hre]
        have hlen : (c.fileData ++ roundBytes G c.name r).length = c.fileData.length := by
          rw [roundBytes_empty G c.name r hre]
          simp
        rw [hlen]
      · rw [if_neg hre, if_neg hre]
        rw [List.length_append]

end FlyDB

open FlyDB
namespace FlyDB

theorem resolveBlock_raw (G : GzipModel) (nm : String) (docs : List Document)
    (hname : goodName nm) :
    resolveBlock G (encodeBytes nm docs) = some (encodeBytes nm docs) := by
  unfold resolveBlock
  rw [if_neg ?_]
  intro h
  simp only [Bool.and_eq_true] at h
  have h1 : ((encodeBytes nm docs).getD 0 ' ' == gzByte1) = true := h.1.2
  unfold encodeBytes headerChars headerText at h1
  match hd : nm.data with
  | [] =>
    rw [hd] at h1
    simp only [List.nil_append, List.cons_append, List.append_assoc,
      List.getD_cons_zero] at h1
    exact absurd h1 (by decide)
  | a :: t =>
    have ha : a ≠ gzByte1 := by
      have h2 := hname.2.2.2.2.2.2
      rw [hd] at h2
      simpa using h2
    rw [hd] at h1
    simp only [List.cons_append, List.append_assoc, List.getD_cons_zero] at h1
    exact ha (by simpa using h1)

theorem resolveBlock_compressed (G : GzipModel) (hG : LawfulGzip G) (x : List Char) :
    resolveBlock G (G.compress x) = some x := by
  obtain ⟨cc, rest, hc⟩ := hG.magic x
  unfold resolveBlock
  rw [if_pos ?_]
  · exact hG.readAll_compress x
  · rw [hc]
    simp only [List.length_cons, List.getD_cons_zero, List.getD_cons_succ,
      Bool.and_eq_true]
    refine ⟨⟨?_, by simp⟩, by simp⟩
    simp only [decide_eq_true_eq]
    omega

theorem FindByID_block (G : GzipModel) (hG : LawfulGzip G) (c : Collection)
    (k nm : String) (docs : List Document) (A B W : List Char)
    (hcl : c.closed = false) (hmem : c.memtable = [])
    (hfile : c.fileData = A ++ (W ++ B))
    (hidx : idxGet c.index k = some ⟨A.length, W.length⟩)
    (hW : W = encodeBytes nm docs ∨ W = G.compress (encodeBytes nm docs))
    (hname : goodName nm) :
    FindByID G c k = fromDecode (Decode (encodeBytes nm docs) k) := by
  unfold FindByID
  rw [if_neg (by simp [hcl])]
  rw [hmem]
  simp only [List.reverse_nil, List.find?_nil]
  rw [hidx]
  simp only []
  have hbuf : readAtBuf c ⟨A.length, W.length⟩ = W := by
    unfold readAtBuf
    rw [hfile]
    simp only []
    rw [List.drop_left, List.take_left]
  rw [hbuf]
  rw [if_neg (lt_irrefl W.length)]
  rcases hW with hraw | hcomp
  · rw [hraw, resolveBlock_raw G nm docs hname]
  · rw [hcomp, resolveBlock_compressed G hG (encodeBytes nm docs)]

end FlyDB

open FlyDB
namespace FlyDB

theorem renderId_coerceId (d : Document) (hid : (docGet d "id").isSome) :
    renderId (coerceId d) = renderId d := by
  unfold renderId coerceId
  match hv : docGet d "id" with
  | none => rw [hv] at hid; cases hid
  | some v =>
    cases v with
    | vText s => simp only []; rw [hv]
    | vInt n => rw [docGet_docSet_self]; rfl
    | vFloat f => rw [docGet_docSet_self]; rfl
    | vBool b => rw [docGet_docSet_self]; rfl

theorem Insert_eq (d : Document) (c : Collection) (hcl : c.closed = false)
    (hid : (docGet d "id").isSome) :
    Insert d c = .ok (renderId (coerceId d),
      { c with memtable := c.memtable ++ [coerceId d] }) := by
  unfold Insert coerceId renderId
  match hv : docGet d "id" with
  | none => rw [hv] at hid; cases hid
  | some v =>
    cases v with
    | vText s =>
      simp only []
      rw [if_neg (by simp [hcl])]
      rw [hv]
      rfl
    | vInt n =>
      simp only []
      rw [if_neg (by simp [hcl])]
      rw [docGet_docSet_self]
      rfl
    | vFloat f =>
      simp only []
      rw [if_neg (by simp [hcl])]
      rw [docGet_docSet_self]
      rfl
    | vBool b =>
      simp only []
      rw [if_neg (by simp [hcl])]
      rw [docGet_docSet_self]
      rfl

theorem Insert_inv (d : Document) (c : Collection) (k : String) (c1 : Collection)
    (h : Insert d c = .ok (k, c1)) :
    c.closed = false ∧ (docGet d "id").isSome ∧ k = renderId (coerceId d) ∧
      c1 = { c with memtable := c.memtable ++ [coerceId d] } := by
  have hid : (docGet d "id").isSome := by
    by_contra hno
    rw [Option.not_isSome_iff_eq_none] at hno
    unfold Insert at h
    rw [hno] at h
    cases h
  have hcl : c.closed = false := by
    by_contra hcc
    have hct : c.closed = true := by
      cases hcv : c.closed
      · exact absurd hcv hcc
      · rfl
    unfold Insert at h
    match hv : docGet d "id" with
    | none => rw [hv] at hid; cases hid
    | some v =>
      rw [hv] at h
      simp only [hct, if_true] at h
      cases h
  rw [Insert_eq d c hcl hid] at h
  have h2 := Except.ok.inj h
  exact ⟨hcl, hid, (Prod.mk.injEq _ _ _ _ ▸ h2).1.symm, (Prod.mk.injEq _ _ _ _ ▸ h2).2.symm⟩

theorem FindByID_after_insert (G : GzipModel) (c : Collection) (d : Document)
    (hcl : c.closed = false) :
    FindByID G { c with memtable := c.memtable ++ [coerceId d] }
        (renderId (coerceId d)) = .ok (coerceId d) := by
  unfold FindByID
  rw [if_neg (by simp [hcl])]
  simp only [List.reverse_append, List.reverse_cons, List.reverse_nil,
    List.nil_append, List.singleton_append, List.find?_cons]
  rw [show (renderId (coerceId d) == renderId (coerceId d)) = true from by simp]

theorem mem_batchSchema_of_get (docs : List Document) (d : Document)
    (hd : d ∈ docs) (f : String) (hf : (docGet d f).isSome) :
    f ∈ batchSchema docs := by
  rcases Option.isSome_iff_exists.mp hf with ⟨v, hv⟩
  rcases docGet_some_mem d f v hv with ⟨p, hp, hpf, _⟩
  unfold batchSchema
  rw [mem_sortSchema, List.mem_dedup]
  refine List.mem_flatten.mpr ⟨docKeys d, List.mem_map.mpr ⟨d, hd, rfl⟩, ?_⟩
  unfold docKeys
  rw [List.mem_dedup]
  exact List.mem_map.mpr ⟨p, hp, hpf⟩

theorem nodup_batchSchema (docs : List Document) : (batchSchema docs).Nodup :=
  nodup_sortSchema _ (List.nodup_dedup _)

theorem find?_last (A : List Document) (x : Document) (p : Document → Bool)
    (hA : ∀ a ∈ A, p a = false) (hx : p x = true) :
    (A ++ [x]).find? p = some x := by
  rw [List.find?_append]
  rw [List.find?_eq_none.mpr (fun a ha => by rw [hA a ha]; exact Bool.false_ne_true)]
  simp [List.find?_cons, hx]

end FlyDB

open FlyDB
namespace FlyDB

/-- C1, amended: after a successful `insert` of record `d` under key `k`, `find(k)` returns the stored record (the newest memtable entry); after a successful commit it returns an extensionally equal record provided `k` was not already pending in the memtable — with duplicate pending keys the block decoder returns the oldest entry instead, so the original unconditional claim fails.  The commit-side hypotheses ask for a lawful gzip codec, a clean collection name, well-formed records, a batch size within `int` range, a record spanning the batch schema, and render-stable values. -/
theorem claim1_find_after_insert (G : GzipModel) (c : Collection) (d : Document)
    (k : String) (c1 : Collection)
    (hins : Insert d c = .ok (k, c1)) :
    FindByID G c1 k = .ok (coerceId d) ∧
    (LawfulGzip G →
     goodName c.name →
     (∀ d0 ∈ c.memtable, renderId d0 ≠ k) →
     (∀ d0 ∈ c1.memtable, goodDoc d0) →
     c1.memtable.length < 2 ^ 63 →
     (∀ f ∈ batchSchema c1.memtable, (docGet (coerceId d) f).isSome) →
     (∀ p ∈ coerceId d, stableValue p.2) →
     ∃ dd, FindByID G (Commit G happyDisk c1).2 k = .ok dd ∧ docEqv dd (coerceId d)) := by
  obtain ⟨hcl, hid, hk, hc1⟩ := Insert_inv d c k c1 hins
  subst hk
  subst hc1
  constructor
  · exact FindByID_after_insert G c d hcl
  · intro hG hname hfresh hgood hcount hspan hstable
    have hgood2 : ∀ d0 ∈ c.memtable ++ [coerceId d], goodDoc d0 := by
      intro d0 h0
      exact hgood d0 (by simpa using h0)
    have hne : c.memtable ++ [coerceId d] ≠ [] := by simp
    have hcount2 : (c.memtable ++ [coerceId d]).length < 2 ^ 63 := by
      simpa using hcount
    have hCS := Commit_success G { c with memtable := c.memtable ++ [coerceId d] }
      hcl hne (fun d0 h0 => (hgood2 d0 h0).1)
    rw [hCS]
    show ∃ dd, FindByID G
      { name := c.name,
        fileData := c.fileData ++
          (if c.compression then G.compress (encodeBytes c.name (c.memtable ++ [coerceId d]))
           else encodeBytes c.name (c.memtable ++ [coerceId d])),
        memtable := [],
        index := (c.memtable ++ [coerceId d]).foldl
          (fun m d0 => idxSet m (renderId d0)
            ⟨c.fileData.length,
             (if c.compression then G.compress (encodeBytes c.name (c.memtable ++ [coerceId d]))
              else encodeBytes c.name (c.memtable ++ [coerceId d])).length⟩) c.index,
        compression := c.compression, closed := c.closed }
      (renderId (coerceId d)) = .ok dd ∧ docEqv dd (coerceId d)
    have hFB := FindByID_block G hG
      { name := c.name,
        fileData := c.fileData ++
          (if c.compression then G.compress (encodeBytes c.name (c.memtable ++ [coerceId d]))
           else encodeBytes c.name (c.memtable ++ [coerceId d])),
        memtable := [],
        index := (c.memtable ++ [coerceId d]).foldl
          (fun m d0 => idxSet m (renderId d0)
            ⟨c.fileData.length,
             (if c.compression then G.compress (encodeBytes c.name (c.memtable ++ [coerceId d]))
              else encodeBytes c.name (c.memtable ++ [coerceId d])).length⟩) c.index,
        compression := c.compression, closed := c.closed }
      (renderId (coerceId d)) c.name (c.memtable ++ [coerceId d])
      c.fileData []
      (if c.compression then G.compress (encodeBytes c.name (c.memtable ++ [coerceId d]))
       else encodeBytes c.name (c.memtable ++ [coerceId d]))
      hcl rfl (by simp) ?hidx ?hWor hname
    case hidx =>
      show idxGet ((c.memtable ++ [coerceId d]).foldl
          (fun m d0 => idxSet m (renderId d0)
            ⟨c.fileData.length,
             (if c.compression then G.compress (encodeBytes c.name (c.memtable ++ [coerceId d]))
              else encodeBytes c.name (c.memtable ++ [coerceId d])).length⟩) c.index)
        (renderId (coerceId d)) = _
      rw [idxGet_foldSet]
      rw [if_pos ?_]
      refine List.any_eq_true.mpr ⟨coerceId d, by simp, by simp⟩
    case hWor =>
      by_cases hcf : c.compression
      · right
        rw [if_pos hcf]
      · left
        rw [if_neg hcf]
    refine ⟨buildDoc (batchSchema (c.memtable ++ [coerceId d]))
      (rowStrings (batchSchema (c.memtable ++ [coerceId d])) (coerceId d)), ?_, ?_⟩
    · rw [hFB]
      rw [Decode_encodeBytes c.name (c.memtable ++ [coerceId d]) (renderId (coerceId d))
        hne hgood2 hname hcount2]
      rw [find?_last c.memtable (coerceId d) _
        (fun a ha => by simpa using hfresh a ha) (by simp)]
      rfl
    · exact buildDoc_eqv (batchSchema (c.memtable ++ [coerceId d])) (coerceId d)
        (nodup_batchSchema _) hspan hstable
        (fun f hf => mem_batchSchema_of_get (c.memtable ++ [coerceId d]) (coerceId d)
          (by simp) f hf)

/-- C1, counterexample: inserting two records under the same key `k1` (payloads 1 then 2), `find` before commit returns payload 2 (newest memtable entry) but after a successful commit returns payload 1 (the decoder returns the first matching row), so `find(k)` does not keep returning the same value across the commit. -/
theorem claim1_counterexample :
    Insert exDocB { dupKeyState with memtable := [exDocA] } = .ok ("k1", dupKeyState) ∧
    FindByID unitGzip dupKeyState "k1" = .ok exDocB ∧
    (Commit unitGzip happyDisk dupKeyState).1 = .ok () ∧
    FindByID unitGzip (Commit unitGzip happyDisk dupKeyState).2 "k1" =
      .ok [("id", Value.vText "k1"), ("v", Value.vInt 1)] ∧
    (Except.ok [("id", Value.vText "k1"), ("v", Value.vInt 1)] : Except Err Document) ≠
      .ok exDocB := by
  refine ⟨by rfl, by decide, by decide, by decide, by decide⟩

/-- C1, witness: a fresh collection, one record inserted under key `k1`; `find` returns it before the commit and an extensionally equal record after the commit. -/
theorem claim1_witness :
    FindByID unitGzip
      { name := "users", fileData := [], memtable := [exDocA], index := [],
        compression := false, closed := false } "k1" = .ok (coerceId exDocA) ∧
    (∃ dd, FindByID unitGzip
      (Commit unitGzip happyDisk
        { name := "users", fileData := [], memtable := [exDocA], index := [],
          compression := false, closed := false }).2 "k1" = .ok dd ∧
      docEqv dd (coerceId exDocA)) := by
  have h := claim1_find_after_insert unitGzip (newCollection "users" false) exDocA "k1"
    { name := "users", fileData := [], memtable := [exDocA], index := [],
      compression := false, closed := false } (by rfl)
  exact ⟨h.1, h.2 unitGzip_lawful (by decide) (by decide)
    (by decide) (by decide) (by decide) (by decide)⟩

end FlyDB

open FlyDB
namespace FlyDB

theorem lastRoundWith_cons_some (k : String) (r r' : Bool × List Document)
    (rest : List (Bool × List Document)) (h : lastRoundWith k rest = some r') :
    lastRoundWith k (r :: rest) = some r' := by
  unfold lastRoundWith at h ⊢
  rw [List.reverse_cons, List.find?_append, h]
  rfl

theorem lastRoundWith_cons_none (k : String) (r : Bool × List Document)
    (rest : List (Bool × List Document)) (h : lastRoundWith k rest = none) :
    lastRoundWith k (r :: rest) =
      (if r.2.any (fun d => renderId (coerceId d) == k) then some r else none) := by
  unfold lastRoundWith at h ⊢
  rw [List.reverse_cons, List.find?_append, h]
  by_cases hp : r.2.any (fun d => renderId (coerceId d) == k)
  · rw [if_pos hp]
    rw [List.find?_cons, hp]
    rfl
  · rw [if_neg hp]
    rw [List.find?_cons, Bool.eq_false_iff.mpr hp]
    rfl

theorem find?_pred {α : Type} (p : α → Bool) (l : List α) (a : α)
    (h : l.find? p = some a) : p a = true := List.find?_some h

theorem lastRoundWith_mem_pred (k : String) (rounds : List (Bool × List Document))
    (r : Bool × List Document) (h : lastRoundWith k rounds = some r) :
    (r.2.any (fun d => renderId (coerceId d) == k)) = true := by
  unfold lastRoundWith at h
  exact find?_pred (fun r0 : Bool × List Document =>
    r0.2.any (fun d => renderId (coerceId d) == k)) rounds.reverse r h

theorem commitIndexOfRounds_cons_empty (G : GzipModel) (name : String)
    (r : Bool × List Document) (rest : List (Bool × List Document))
    (off : Nat) (idx : IndexMap) (hre : r.2.isEmpty) :
    commitIndexOfRounds G name off (r :: rest) idx =
      commitIndexOfRounds G name off rest idx := by
  show (if r.2.isEmpty then _ else _) = _
  rw [if_pos hre]

theorem commitIndexOfRounds_cons_full (G : GzipModel) (name : String)
    (r : Bool × List Document) (rest : List (Bool × List Document))
    (off : Nat) (idx : IndexMap) (hre : ¬ (r.2.isEmpty = true)) :
    commitIndexOfRounds G name off (r :: rest) idx =
      commitIndexOfRounds G name (off + (roundBytes G name r).length) rest
        ((r.2.map coerceId).foldl
          (fun m d => idxSet m (renderId d)
            ⟨off, (roundBytes G name r).length⟩) idx) := by
  show (if r.2.isEmpty then _ else _) = _
  rw [if_neg hre]

theorem commitIndex_spec (G : GzipModel) (name : String) (k : String) :
    ∀ (rounds : List (Bool × List Document)) (off : Nat) (idx : IndexMap),
    (lastRoundWith k rounds = none ∧
      idxGet (commitIndexOfRounds G name off rounds idx) k = idxGet idx k) ∨
    (∃ r A B, lastRoundWith k rounds = some r ∧
      (rounds.map (roundBytes G name)).flatten = A ++ (roundBytes G name r ++ B) ∧
      idxGet (commitIndexOfRounds G name off rounds idx) k =
        some ⟨off + A.length, (roundBytes G name r).length⟩) := by
  intro rounds
  induction rounds with
  | nil => intro off idx; left; exact ⟨rfl, rfl⟩
  | cons r rest ih =>
    intro off idx
    by_cases hre : r.2.isEmpty
    · have hpred : (r.2.any fun d => renderId (coerceId d) == k) = false := by
        rw [show r.2 = [] from by simpa using hre]
        rfl
      rcases ih off idx with ⟨hnone, hval⟩ | ⟨r', A, B, hlast, hflat, hval⟩
      · left
        refine ⟨?_, by rw [commitIndexOfRounds_cons_empty G name r rest off idx hre]; exact hval⟩
        rw [lastRoundWith_cons_none k r rest hnone, if_neg (by rw [hpred]; exact Bool.false_ne_true)]
      · right
        refine ⟨r', A, B, lastRoundWith_cons_some k r r' rest hlast, ?_,
          by rw [commitIndexOfRounds_cons_empty G name r rest off idx hre]; exact hval⟩
        rw [List.map_cons, List.flatten_cons, roundBytes_empty G name r hre,
          List.nil_append, hflat]
    · rcases ih (off + (roundBytes G name r).length)
        ((r.2.map coerceId).foldl
          (fun m d => idxSet m (renderId d)
            ⟨off, (roundBytes G name r).length⟩) idx) with
        ⟨hnone, hval⟩ | ⟨r', A, B, hlast, hflat, hval⟩
      · rw [commitIndexOfRounds_cons_full G name r rest off idx hre] at *
        rw [idxGet_foldSet (r.2.map coerceId) _ idx k] at hval
        by_cases hp : (r.2.map coerceId).any (fun d => renderId d == k)
        · right
          refine ⟨r, [], (rest.map (roundBytes G name)).flatten, ?_, by simp, ?_⟩
          · rw [lastRoundWith_cons_none k r rest hnone, if_pos ?_]
            have hp2 := hp
            rw [List.any_map] at hp2
            simpa [Function.comp] using hp2
          · rw [hval, if_pos hp]
            simp
        · left
          constructor
          · rw [lastRoundWith_cons_none k r rest hnone, if_neg ?_]
            have hp2 : (r.2.any fun d => renderId (coerceId d) == k) = false := by
              have hp3 := Bool.eq_false_iff.mpr hp
              rw [List.any_map] at hp3
              simpa [Function.comp] using hp3
            rw [hp2]
            exact Bool.false_ne_true
          · rw [hval, if_neg hp]
      · right
        rw [commitIndexOfRounds_cons_full G name r rest off idx hre]
        refine ⟨r', roundBytes G name r ++ A, B,
          lastRoundWith_cons_some k r r' rest hlast, ?_, ?_⟩
        · rw [List.map_cons, List.flatten_cons, hflat]
          simp [List.append_assoc]
        · rw [hval]
          simp only [List.length_append]
          congr 1
          congr 1
          omega

theorem FindByID_no_index (G : GzipModel) (c : Collection) (k : String)
    (hcl : c.closed = false) (hm : c.memtable = [])
    (hidx : idxGet c.index k = none) : FindByID G c k = .error .notFound := by
  unfold FindByID
  rw [if_neg (by simp [hcl]), hm]
  simp only [List.reverse_nil, List.find?_nil]
  rw [hidx]

theorem FindByID_runRounds (G : GzipModel) (hG : LawfulGzip G) (name : String)
    (flag0 : Bool) (rounds : List (Bool × List Document)) (k : String)
    (hwf : RoundsWf rounds) (hname : goodName name) :
    ∃ cf, runRounds G rounds (newCollection name flag0) = .ok cf ∧
      cf.name = name ∧
      cf.fileData = (rounds.map (roundBytes G name)).flatten ∧
      cf.index = commitIndexOfRounds G name 0 rounds [] ∧
      cf.memtable = [] ∧ cf.closed = false ∧
      FindByID G cf k = roundsFindSpec name rounds k := by
  obtain ⟨cf, hrun, hnm, hfile, hidx, hmem, hcl⟩ :=
    runRounds_state G rounds (fun r hr d hd => ((hwf r hr).1 d hd).1)
      (newCollection name flag0) rfl rfl
  have hnm2 : cf.name = name := hnm
  have hfile2 : cf.fileData = (rounds.map (roundBytes G name)).flatten := by
    rw [hfile]
    simp [newCollection]
  have hidx2 : cf.index = commitIndexOfRounds G name 0 rounds [] := by
    rw [hidx]
    simp [newCollection]
  refine ⟨cf, hrun, hnm2, hfile2, hidx2, hmem, hcl, ?_⟩
  rcases commitIndex_spec G name k rounds 0 [] with
    ⟨hnone, hval⟩ | ⟨r, A, B, hlast, hflat, hval⟩
  · rw [FindByID_no_index G cf k hcl hmem (by rw [hidx2, hval]; rfl)]
    unfold roundsFindSpec
    rw [hnone]
  · have hpred := lastRoundWith_mem_pred k rounds r hlast
    have hne : ¬ (r.2.isEmpty = true) := by
      rcases List.any_eq_true.mp hpred with ⟨d, hd, _⟩
      intro hh
      rw [show r.2 = [] from by simpa using hh] at hd
      cases hd
    have hWor : roundBytes G name r = encodeBytes name (r.2.map coerceId) ∨
        roundBytes G name r = G.compress (encodeBytes name (r.2.map coerceId)) := by
      unfold roundBytes
      rw [if_neg hne]
      by_cases hflag : r.1
      · right; rw [if_pos hflag]; rfl
      · left; rw [if_neg hflag]; rfl
    have hFB := FindByID_block G hG cf k name (r.2.map coerceId) A B
      (roundBytes G name r) hcl hmem
      (by rw [hfile2, hflat]) (by rw [hidx2, hval]; simp) hWor hname
    rw [hFB]
    unfold roundsFindSpec
    rw [hlast]
    rfl

end FlyDB

open FlyDB
namespace FlyDB

theorem getD_append_idx (A : List Char) (l : List Char) (i : Nat) (x : Char) :
    (A ++ l).getD (A.length + i) x = l.getD i x := by
  induction A with
  | nil => simp
  | cons a t ih =>
    rw [List.cons_append, List.length_cons]
    rw [show t.length + 1 + i = (t.length + i) + 1 from by omega]
    rw [List.getD_cons_succ]
    exact ih

theorem takeRows_rows (schema : List String) :
    ∀ (docs : List Document) (acc s' : List Char),
    takeRows docs.length ((docs.map (rowChars schema)).flatten ++ s') acc =
      acc ++ (docs.map (rowChars schema)).flatten := by
  intro docs
  induction docs with
  | nil => intro acc s'; simp [takeRows]
  | cons d ds ih =>
    intro acc s'
    rw [List.map_cons, List.flatten_cons, List.length_cons]
    show (match takeLine (rowChars schema d ++ (ds.map (rowChars schema)).flatten ++ s') with
      | none => acc
      | some (line, rest) => takeRows ds.length rest (acc ++ line ++ ['\n'])) = _
    rw [show rowChars schema d ++ (ds.map (rowChars schema)).flatten ++ s' =
      rowChars schema d ++ ((ds.map (rowChars schema)).flatten ++ s') from by simp]
    rw [takeLine_rowChars]
    simp only []
    rw [ih]
    rw [show acc ++ rowBody schema d ++ ['\n'] = acc ++ rowChars schema d from by
      unfold rowChars; simp]
    simp

theorem encodeBytes_cons (nm : String) (docs : List Document) (hname : goodName nm) :
    ∃ ch t, encodeBytes nm docs = ch :: t ∧ (ch == gzByte1) = false := by
  unfold encodeBytes headerChars headerText
  match hd : nm.data with
  | [] =>
    refine ⟨'[', natToChars docs.length ++ ']' :: '{' ::
      (List.intercalate [','] ((batchSchema docs).map String.data)) ++ ['}', ':'] ++ ['\n'] ++
      (docs.map (rowChars (batchSchema docs))).flatten, ?_, by decide⟩
    simp
  | a :: t0 =>
    have ha : ¬ (a = gzByte1) := by
      have h2 := hname.2.2.2.2.2.2
      rw [hd] at h2
      simpa using h2
    refine ⟨a, t0 ++ ('[' :: natToChars docs.length ++ ']' :: '{' ::
      (List.intercalate [','] ((batchSchema docs).map String.data)) ++ ['}', ':']) ++ ['\n'] ++
      (docs.map (rowChars (batchSchema docs))).flatten, ?_, by simpa using ha⟩
    simp

theorem encodeBytes_ne_nil (nm : String) (docs : List Document) (hname : goodName nm) :
    encodeBytes nm docs ≠ [] := by
  obtain ⟨ch, t, hct, _⟩ := encodeBytes_cons nm docs hname
  rw [hct]
  exact List.cons_ne_nil ch t

end FlyDB

theorem getD_append_zero (A l : List Char) (x : Char) :
    (A ++ l).getD A.length x = l.getD 0 x := by
  have := getD_append_idx A l 0 x
  simpa using this

theorem indexOfBlocks_cons (off : Nat) (b : List Char × List Char)
    (rest : List (List Char × List Char)) (idx : IndexMap) :
    indexOfBlocks off (b :: rest) idx =
      indexOfBlocks (off + b.1.length) rest
        (match ExtractIDs b.2 with
         | .error _ => idx
         | .ok ids => ids.foldl (fun m i => idxSet m i ⟨off, b.1.length⟩) idx) := rfl

theorem loadIndexLoop_step_raw (G : GzipModel) (name : String) (docs : List Document)
    (A s' : List Char) (n : Nat) (idx : IndexMap)
    (hname : goodName name) (hne : docs ≠ []) (hgood : ∀ d ∈ docs, goodDoc d)
    (hcount : docs.length < 2 ^ 63) :
    loadIndexLoop G (A ++ (encodeBytes name docs ++ s')) (n + 1) A.length idx =
      loadIndexLoop G (A ++ (encodeBytes name docs ++ s')) n
        (A.length + (encodeBytes name docs).length)
        ((docs.map (rowKey (batchSchema docs))).foldl
          (fun m i => idxSet m i ⟨A.length, (encodeBytes name docs).length⟩) idx) := by
  obtain ⟨ch, t, hct, hch⟩ := encodeBytes_cons name docs hname
  have hlen : A.length < (A ++ (encodeBytes name docs ++ s')).length := by
    rw [hct]
    simp
  rw [loadIndexLoop, if_pos hlen]
  simp only []
  have hE1 : (((A ++ (encodeBytes name docs ++ s')).getD A.length ' ') == gzByte1) = false := by
    rw [hct, getD_append_zero, List.cons_append, List.getD_cons_zero]
    exact hch
  rw [hE1, Bool.and_false, Bool.false_and]
  rw [if_neg Bool.false_ne_true]
  rw [show List.drop A.length (A ++ (encodeBytes name docs ++ s')) =
    encodeBytes name docs ++ s' from List.drop_left A (encodeBytes name docs ++ s')]
  rw [takeLine_encodeBytes name docs s' hname hgood]
  simp only []
  have hph : ParseHeader (String.mk (headerText name docs.length (batchSchema docs) ++ ['\n'])) =
      .ok ((docs.length : Int), batchSchema docs, 0) := by
    unfold headerText
    rw [show (name.data ++ '[' :: natToChars docs.length ++ ']' :: '{' ::
      (List.intercalate [','] ((batchSchema docs).map String.data)) ++ ['}', ':']) ++ ['\n'] =
      name.data ++ '[' :: natToChars docs.length ++ ']' :: '{' ::
      (List.intercalate [','] ((batchSchema docs).map String.data)) ++ '}' :: [':', '\n'] from
      by simp]
    exact parseHeader_chars name docs.length (batchSchema docs) [':', '\n'] hname
      (batchSchema_goodFields docs hgood) hcount
      (batchSchema_cons docs hne (fun d hd => (hgood d hd).1))
  rw [hph]
  simp only [Int.toNat_ofNat]
  rw [takeRows_rows (batchSchema docs) docs [] s']
  simp only [List.nil_append]
  have hEB : headerText name docs.length (batchSchema docs) ++ ['\n'] ++
      (docs.map (rowChars (batchSchema docs))).flatten = encodeBytes name docs := by
    unfold encodeBytes headerChars
    simp
  rw [hEB]
  rw [ExtractIDs_encodeBytes name docs hne hgood hname hcount]

theorem loadIndexLoop_step_gz (G : GzipModel) (hG : LawfulGzip G) (name : String)
    (docs : List Document) (A s' : List Char) (n : Nat) (idx : IndexMap)
    (hname : goodName name) (hne : docs ≠ []) (hgood : ∀ d ∈ docs, goodDoc d)
    (hcount : docs.length < 2 ^ 63) :
    loadIndexLoop G (A ++ (G.compress (encodeBytes name docs) ++ s')) (n + 1) A.length idx =
      loadIndexLoop G (A ++ (G.compress (encodeBytes name docs) ++ s')) n
        (A.length + (G.compress (encodeBytes name docs)).length)
        ((docs.map (rowKey (batchSchema docs))).foldl
          (fun m i => idxSet m i
            ⟨A.length, (G.compress (encodeBytes name docs)).length⟩) idx) := by
  obtain ⟨cc, rest, hc⟩ := hG.magic (encodeBytes name docs)
  have hlen : A.length < (A ++ (G.compress (encodeBytes name docs) ++ s')).length := by
    rw [hc]
    simp
  rw [loadIndexLoop, if_pos hlen]
  simp only []
  have htrue : (decide (A.length + 2 < (A ++ (G.compress (encodeBytes name docs) ++ s')).length) &&
      (((A ++ (G.compress (encodeBytes name docs) ++ s')).getD A.length ' ') == gzByte1) &&
      (((A ++ (G.compress (encodeBytes name docs) ++ s')).getD (A.length + 1) ' ') == gzByte2)) = true := by
    rw [hc]
    simp only [Bool.and_eq_true, decide_eq_true_eq]
    refine ⟨⟨?_, ?_⟩, ?_⟩
    · simp only [List.length_append, List.cons_append, List.length_cons]
      omega
    · rw [getD_append_zero, List.cons_append, List.getD_cons_zero]
      simp
    · rw [getD_append_idx, List.cons_append, List.getD_cons_succ,
        List.cons_append, List.getD_cons_zero]
      simp
  rw [htrue]
  rw [if_pos rfl]
  rw [show List.drop A.length (A ++ (G.compress (encodeBytes name docs) ++ s')) =
    G.compress (encodeBytes name docs) ++ s' from
    List.drop_left A (G.compress (encodeBytes name docs) ++ s')]
  rw [hG.member_prefix (encodeBytes name docs) s']
  simp only []
  rw [ExtractIDs_encodeBytes name docs hne hgood hname hcount]

theorem loadIndexLoop_blocks (G : GzipModel) (hG : LawfulGzip G) (name : String)
    (hname : goodName name) :
    ∀ (blocks : List (List Char × List Char)) (A : List Char) (fuel : Nat) (idx : IndexMap),
    (∀ b ∈ blocks, ∃ docs, b.2 = encodeBytes name docs ∧ docs ≠ [] ∧
      (∀ d ∈ docs, goodDoc d) ∧ docs.length < 2 ^ 63 ∧
      (b.1 = b.2 ∨ b.1 = G.compress b.2)) →
    blocks.length ≤ fuel →
    loadIndexLoop G (A ++ (blocks.map Prod.fst).flatten) fuel A.length idx =
      indexOfBlocks A.length blocks idx := by
  intro blocks
  induction blocks with
  | nil =>
    intro A fuel idx _ _
    match fuel with
    | 0 => rfl
    | n + 1 =>
      rw [loadIndexLoop, if_neg (by simp)]
      rfl
  | cons b rest ih =>
    intro A fuel idx hwf hfuel
    match fuel with
    | 0 => exact absurd hfuel (by simp)
    | n + 1 =>
      obtain ⟨docs, hb2, hdne, hdg, hdc, hb1⟩ := hwf b (by simp)
      have hfuel2 : rest.length ≤ n := by
        simp only [List.length_cons] at hfuel
        omega
      have hwf2 : ∀ b2 ∈ rest, ∃ docs, b2.2 = encodeBytes name docs ∧ docs ≠ [] ∧
          (∀ d ∈ docs, goodDoc d) ∧ docs.length < 2 ^ 63 ∧
          (b2.1 = b2.2 ∨ b2.1 = G.compress b2.2) :=
        fun b2 h2 => hwf b2 (List.mem_cons_of_mem b h2)
      have hflat : ((b :: rest).map Prod.fst).flatten = b.1 ++ (rest.map Prod.fst).flatten := by
        rw [List.map_cons, List.flatten_cons]
      have hEX : ExtractIDs b.2 = .ok (docs.map (rowKey (batchSchema docs))) := by
        rw [hb2]
        exact ExtractIDs_encodeBytes name docs hdne hdg hname hdc
      rcases hb1 with hraw | hgz
      · have hstep := loadIndexLoop_step_raw G name docs A
          ((rest.map Prod.fst).flatten) n idx hname hdne hdg hdc
        rw [hflat, hraw, hb2]
        rw [hstep]
        have hih := ih (A ++ encodeBytes name docs) n
          ((docs.map (rowKey (batchSchema docs))).foldl
            (fun m i => idxSet m i ⟨A.length, (encodeBytes name docs).length⟩) idx)
          hwf2 hfuel2
        rw [List.append_assoc] at hih
        rw [show A.length + (encodeBytes name docs).length =
          (A ++ encodeBytes name docs).length from by simp] at *
        rw [hih]
        rw [indexOfBlocks_cons]
        rw [hEX]
        simp only []
        rw [hraw, hb2]
        rw [show A.length + (encodeBytes name docs).length =
          (A ++ encodeBytes name docs).length from by simp]
      · have hstep := loadIndexLoop_step_gz G hG name docs A
          ((rest.map Prod.fst).flatten) n idx hname hdne hdg hdc
        rw [hflat, hgz, hb2]
        rw [hstep]
        have hih := ih (A ++ G.compress (encodeBytes name docs)) n
          ((docs.map (rowKey (batchSchema docs))).foldl
            (fun m i => idxSet m i ⟨A.length, (G.compress (encodeBytes name docs)).length⟩) idx)
          hwf2 hfuel2
        rw [List.append_assoc] at hih
        rw [show A.length + (G.compress (encodeBytes name docs)).length =
          (A ++ G.compress (encodeBytes name docs)).length from by simp] at *
        rw [hih]
        rw [indexOfBlocks_cons]
        rw [hEX]
        simp only []
        rw [hgz, hb2]
        rw [show A.length + (G.compress (encodeBytes name docs)).length =
          (A ++ G.compress (encodeBytes name docs)).length from by simp]

theorem blocks_le_flatten (blocks : List (List Char × List Char))
    (h : ∀ b ∈ blocks, b.1 ≠ []) :
    blocks.length ≤ ((blocks.map Prod.fst).flatten).length := by
  induction blocks with
  | nil => simp
  | cons b rest ih =>
    rw [List.map_cons, List.flatten_cons, List.length_cons, List.length_append]
    have hb := h b (by simp)
    have h1 : 1 ≤ b.1.length := List.length_pos.mpr hb
    have h2 := ih (fun b2 h2 => h b2 (List.mem_cons_of_mem b h2))
    omega

theorem loadIndex_blocks (G : GzipModel) (hG : LawfulGzip G) (name : String)
    (hname : goodName name) (blocks : List (List Char × List Char))
    (hwf : ∀ b ∈ blocks, ∃ docs, b.2 = encodeBytes name docs ∧ docs ≠ [] ∧
      (∀ d ∈ docs, goodDoc d) ∧ docs.length < 2 ^ 63 ∧
      (b.1 = b.2 ∨ b.1 = G.compress b.2)) :
    loadIndex G ((blocks.map Prod.fst).flatten) = indexOfBlocks 0 blocks [] := by
  unfold loadIndex
  have hne : ∀ b ∈ blocks, b.1 ≠ [] := by
    intro b hb
    obtain ⟨docs, hb2, hdne, hdg, hdc, hb1⟩ := hwf b hb
    rcases hb1 with hraw | hgz
    · rw [hraw, hb2]
      exact encodeBytes_ne_nil name docs hname
    · rw [hgz]
      obtain ⟨cc, rest, hc⟩ := hG.magic b.2
      rw [hc]
      exact List.cons_ne_nil _ _
  have hle : blocks.length ≤ ((blocks.map Prod.fst).flatten).length + 1 := by
    have := blocks_le_flatten blocks hne
    omega
  have h := loadIndexLoop_blocks G hG name hname blocks []
    (((blocks.map Prod.fst).flatten).length + 1) [] hwf hle
  simpa using h

theorem goodDoc_coerceId (d : Document) (h : goodDoc d) : goodDoc (coerceId d) := by
  obtain ⟨hid, hfields⟩ := h
  constructor
  · obtain ⟨s, hs⟩ := docGet_coerceId_id d hid
    rw [hs]
    rfl
  · intro p hp
    unfold coerceId at hp
    match hv : docGet d "id" with
    | none => rw [hv] at hp; exact hfields p hp
    | some v =>
      rw [hv] at hp
      cases v with
      | vText s => exact hfields p hp
      | vInt n =>
        unfold docSet at hp
        by_cases hany : d.any (fun q => q.1 == "id")
        · rw [hany] at hp
          simp only [if_true] at hp
          rcases List.mem_map.mp hp with ⟨q, hq, hqe⟩
          by_cases hq1 : q.1 == "id"
          · rw [if_pos hq1] at hqe
            rw [← hqe]
            exact (by decide : goodField "id")
          · rw [if_neg hq1] at hqe
            rw [← hqe]
            exact hfields q hq
        · rw [Bool.eq_false_iff.mpr hany] at hp
          simp only [if_false] at hp
          rcases List.mem_append.mp hp with hp2 | hp2
          · exact hfields p hp2
          · rw [show p = ("id", Value.vText (renderValue (Value.vInt n))) from by simpa using hp2]
            exact (by decide : goodField "id")
      | vFloat f =>
        unfold docSet at hp
        by_cases hany : d.any (fun q => q.1 == "id")
        · rw [hany] at hp
          simp only [if_true] at hp
          rcases List.mem_map.mp hp with ⟨q, hq, hqe⟩
          by_cases hq1 : q.1 == "id"
          · rw [if_pos hq1] at hqe
            rw [← hqe]
            exact (by decide : goodField "id")
          · rw [if_neg hq1] at hqe
            rw [← hqe]
            exact hfields q hq
        · rw [Bool.eq_false_iff.mpr hany] at hp
          simp only [if_false] at hp
          rcases List.mem_append.mp hp with hp2 | hp2
          · exact hfields p hp2
          · rw [show p = ("id", Value.vText (renderValue (Value.vFloat f))) from by simpa using hp2]
            exact (by decide : goodField "id")
      | vBool b =>
        unfold docSet at hp
        by_cases hany : d.any (fun q => q.1 == "id")
        · rw [hany] at hp
          simp only [if_true] at hp
          rcases List.mem_map.mp hp with ⟨q, hq, hqe⟩
          by_cases hq1 : q.1 == "id"
          · rw [if_pos hq1] at hqe
            rw [← hqe]
            exact (by decide : goodField "id")
          · rw [if_neg hq1] at hqe
            rw [← hqe]
            exact hfields q hq
        · rw [Bool.eq_false_iff.mpr hany] at hp
          simp only [if_false] at hp
          rcases List.mem_append.mp hp with hp2 | hp2
          · exact hfields p hp2
          · rw [show p = ("id", Value.vText (renderValue (Value.vBool b))) from by simpa using hp2]
            exact (by decide : goodField "id")

open FlyDB
namespace FlyDB

theorem flatten_roundBytes_eq (G : GzipModel) (name : String) :
    ∀ rounds : List (Bool × List Document),
    (rounds.map (roundBytes G name)).flatten =
      ((roundBlocks G name rounds).map Prod.fst).flatten := by
  intro rounds
  induction rounds with
  | nil => rfl
  | cons r rest ih =>
    by_cases hre : r.2.isEmpty
    · have hskip : roundBlocks G name (r :: rest) = roundBlocks G name rest := by
        unfold roundBlocks
        rw [List.filter_cons, show (!r.2.isEmpty) = false from by simp [hre]]
        rfl
      rw [hskip, List.map_cons, List.flatten_cons, roundBytes_empty G name r hre,
        List.nil_append, ih]
    · have hcons : roundBlocks G name (r :: rest) =
          (roundBytes G name r, roundRaw name r) :: roundBlocks G name rest := by
        unfold roundBlocks
        rw [List.filter_cons, show (!r.2.isEmpty) = true from by simp [hre]]
        rfl
      rw [hcons, List.map_cons, List.flatten_cons, List.map_cons, List.flatten_cons, ih]

theorem roundBlocks_wf (G : GzipModel) (name : String)
    (rounds : List (Bool × List Document)) (hwf : RoundsWf rounds) :
    ∀ b ∈ roundBlocks G name rounds, ∃ docs, b.2 = encodeBytes name docs ∧ docs ≠ [] ∧
      (∀ d ∈ docs, goodDoc d) ∧ docs.length < 2 ^ 63 ∧
      (b.1 = b.2 ∨ b.1 = G.compress b.2) := by
  intro b hb
  unfold roundBlocks at hb
  rcases List.mem_map.mp hb with ⟨r, hr, rfl⟩
  have hrmem : r ∈ rounds := List.mem_of_mem_filter hr
  have hrne : ¬(r.2.isEmpty = true) := by
    have h2 := List.of_mem_filter hr
    simpa using h2
  refine ⟨r.2.map coerceId, rfl, ?_, ?_, ?_, ?_⟩
  · intro hmapnil
    exact hrne (by simp [List.map_eq_nil_iff.mp hmapnil])
  · intro d hd
    rcases List.mem_map.mp hd with ⟨d0, hd0, rfl⟩
    exact goodDoc_coerceId d0 ((hwf r hrmem).1 d0 hd0)
  · simpa using (hwf r hrmem).2
  · show roundBytes G name r = roundRaw name r ∨ roundBytes G name r = G.compress (roundRaw name r)
    unfold roundBytes
    rw [if_neg hrne]
    by_cases hf : r.1
    · right
      rw [if_pos hf]
    · left
      rw [if_neg hf]

theorem indexOfBlocks_eq_commit (G : GzipModel) (name : String) (hname : goodName name) :
    ∀ rounds : List (Bool × List Document), RoundsWf rounds →
    (∀ r ∈ rounds, ∀ d ∈ r.2, plainKey (renderId (coerceId d))) →
    ∀ off idx, indexOfBlocks off (roundBlocks G name rounds) idx =
      commitIndexOfRounds G name off rounds idx := by
  intro rounds
  induction rounds with
  | nil => intro _ _ off idx; rfl
  | cons r rest ih =>
    intro hwf hplain off idx
    have hwf2 : RoundsWf rest := fun r2 h2 => hwf r2 (List.mem_cons_of_mem r h2)
    have hplain2 : ∀ r2 ∈ rest, ∀ d ∈ r2.2, plainKey (renderId (coerceId d)) :=
      fun r2 h2 => hplain r2 (List.mem_cons_of_mem r h2)
    by_cases hre : r.2.isEmpty
    · have hskip : roundBlocks G name (r :: rest) = roundBlocks G name rest := by
        unfold roundBlocks
        rw [List.filter_cons, show (!r.2.isEmpty) = false from by simp [hre]]
        rfl
      rw [hskip, ih hwf2 hplain2 off idx, commitIndexOfRounds_cons_empty G name r rest off idx hre]
    · have hcons : roundBlocks G name (r :: rest) =
          (roundBytes G name r, roundRaw name r) :: roundBlocks G name rest := by
        unfold roundBlocks
        rw [List.filter_cons, show (!r.2.isEmpty) = true from by simp [hre]]
        rfl
      rw [hcons, indexOfBlocks_cons]
      have hdocs_ne : r.2.map coerceId ≠ [] := by
        intro hmapnil
        exact hre (by simp [List.map_eq_nil_iff.mp hmapnil])
      have hdg : ∀ d ∈ r.2.map coerceId, goodDoc d := by
        intro d hd
        rcases List.mem_map.mp hd with ⟨d0, hd0, rfl⟩
        exact goodDoc_coerceId d0 ((hwf r (by simp)).1 d0 hd0)
      have hdc : (r.2.map coerceId).length < 2 ^ 63 := by
        simpa using (hwf r (by simp)).2
      obtain ⟨tl, htl⟩ := batchSchema_cons (r.2.map coerceId) hdocs_ne
        (fun d hd => (hdg d hd).1)
      have hEX : ExtractIDs (roundRaw name r) =
          .ok ((r.2.map coerceId).map renderId) := by
        show ExtractIDs (encodeBytes name (r.2.map coerceId)) = _
        rw [ExtractIDs_encodeBytes name (r.2.map coerceId) hdocs_ne hdg hname hdc]
        congr 1
        rw [htl]
        refine List.map_congr_left (fun d hd => ?_)
        rcases List.mem_map.mp hd with ⟨d0, hd0, rfl⟩
        exact rowKey_plain tl (coerceId d0) (hplain r (by simp) d0 hd0)
      rw [hEX]
      simp only []
      rw [List.foldl_map]
      rw [ih hwf2 hplain2]
      rw [commitIndexOfRounds_cons_full G name r rest off idx hre]

theorem FindByID_congr (G : GzipModel) (c1 c2 : Collection) (k : String)
    (h1 : c1.closed = c2.closed) (h2 : c1.memtable = c2.memtable)
    (h3 : c1.index = c2.index) (h4 : c1.fileData = c2.fileData) :
    FindByID G c1 k = FindByID G c2 k := by
  unfold FindByID readAtBuf
  rw [h1, h2, h3, h4]

end FlyDB

open FlyDB
namespace FlyDB

theorem batchSchema_singleton_span (d : Document) :
    ∀ f ∈ batchSchema [d], (docGet d f).isSome := by
  intro f hf
  unfold batchSchema at hf
  rw [mem_sortSchema, List.mem_dedup] at hf
  rcases List.mem_flatten.mp hf with ⟨l, hl, hfl⟩
  rcases List.mem_map.mp hl with ⟨d0, hd0, rfl⟩
  have hdd : d0 = d := by simpa using hd0
  subst hdd
  unfold docKeys at hfl
  rw [List.mem_dedup] at hfl
  rcases List.mem_map.mp hfl with ⟨p, hp, rfl⟩
  have hsome : (d0.find? (fun q => q.1 == p.1)).isSome :=
    List.find?_isSome.mpr ⟨p, hp, by simp⟩
  simpa [docGet] using hsome

/-- C2, amended: over any sequence of insert-and-commit rounds whose keys contain none of the characters the row encoding escapes, `find(k)` after the last commit returns the block of the LAST round that wrote `k` (later blocks overwrite earlier index entries); when that round wrote a single record, the returned record is extensionally equal to it (up to re-inferred value types); and reopening the file (fresh memtable, index rebuilt by the recovery scan) leaves every lookup unchanged.  For keys containing a backslash, comma or line break the reopen clause fails: the recovery fast path extracts a truncated escaped key, so the claim needs the plain-key restriction. -/
theorem claim2_last_commit_wins (G : GzipModel) (hG : LawfulGzip G) (name : String)
    (flag0 flag2 : Bool) (rounds : List (Bool × List Document)) (k : String)
    (hwf : RoundsWf rounds)
    (hname : goodName name)
    (hplain : ∀ r ∈ rounds, ∀ d ∈ r.2, plainKey (renderId (coerceId d))) :
    ∃ cf, runRounds G rounds (newCollection name flag0) = .ok cf ∧
      FindByID G cf k = roundsFindSpec name rounds k ∧
      (∀ b d, lastRoundWith k rounds = some (b, [d]) →
        (∀ p ∈ coerceId d, stableValue p.2) →
        ∃ dd, FindByID G cf k = .ok dd ∧ docEqv dd (coerceId d)) ∧
      FindByID G (openCollection G name cf.fileData flag2) k = FindByID G cf k := by
  obtain ⟨cf, hrun, hnm, hfile, hidx, hmem, hcl, hfind⟩ :=
    FindByID_runRounds G hG name flag0 rounds k hwf hname
  refine ⟨cf, hrun, hfind, ?_, ?_⟩
  · intro b d hlast hstable
    have hpred := lastRoundWith_mem_pred k rounds (b, [d]) hlast
    have hkd : renderId (coerceId d) = k := by simpa using hpred
    have hmemr : (b, [d]) ∈ rounds := by
      unfold lastRoundWith at hlast
      have h2 := List.mem_of_find?_eq_some hlast
      simpa using h2
    have hgd : goodDoc d := (hwf _ hmemr).1 d (by simp)
    have hDE : Decode (encodeBytes name [coerceId d]) k =
        .ok (some (buildDoc (batchSchema [coerceId d])
          (rowStrings (batchSchema [coerceId d]) (coerceId d)))) := by
      rw [Decode_encodeBytes name [coerceId d] k (by simp)
        (by
          intro d0 h0
          rw [show d0 = coerceId d from by simpa using h0]
          exact goodDoc_coerceId d hgd)
        hname (by norm_num)]
      rw [show List.find? (fun d0 => renderId d0 == k) [coerceId d] = some (coerceId d) from by
        rw [List.find?_cons, show (renderId (coerceId d) == k) = true from by simp [hkd]]]
      rfl
    refine ⟨buildDoc (batchSchema [coerceId d])
      (rowStrings (batchSchema [coerceId d]) (coerceId d)), ?_, ?_⟩
    · rw [hfind]
      unfold roundsFindSpec
      rw [hlast]
      simp only []
      rw [show roundRaw name (b, [d]) = encodeBytes name [coerceId d] from rfl, hDE]
      rfl
    · exact buildDoc_eqv _ (coerceId d) (nodup_batchSchema _)
        (batchSchema_singleton_span (coerceId d)) hstable
        (fun f hf => mem_batchSchema_of_get [coerceId d] (coerceId d) (by simp) f hf)
  · refine FindByID_congr G _ cf k hcl.symm hmem.symm ?_ rfl
    show loadIndex G cf.fileData = cf.index
    rw [hfile, flatten_roundBytes_eq G name rounds,
      loadIndex_blocks G hG name hname (roundBlocks G name rounds)
        (roundBlocks_wf G name rounds hwf),
      indexOfBlocks_eq_commit G name hname rounds hwf hplain 0 []]
    exact hidx.symm

/-- C2, counterexample: the key `a,b` is committed twice; before reopening, `find` returns the latest payload, but after closing and reopening the recovery scanner indexes the truncated escaped key instead, and `find` fails with NotFound. -/
theorem claim2_counterexample :
    (runRounds unitGzip [(false, [commaDocA]), (false, [commaDocB])]
        (newCollection "t" false)).map (fun cf => FindByID unitGzip cf "a,b") =
      .ok (.ok commaDocB) ∧
    (runRounds unitGzip [(false, [commaDocA]), (false, [commaDocB])]
        (newCollection "t" false)).map
        (fun cf => FindByID unitGzip (openCollection unitGzip "t" cf.fileData false) "a,b") =
      .ok (.error .notFound) := by
  exact ⟨by decide, by decide⟩

/-- C2, witness: key `k1` committed twice (second round compressed); `find` resolves through the last block and the reopened collection answers identically. -/
theorem claim2_witness :
    ∃ cf, runRounds unitGzip [(false, [exDocA]), (true, [exDocB])]
        (newCollection "users" false) = .ok cf ∧
      FindByID unitGzip cf "k1" =
        roundsFindSpec "users" [(false, [exDocA]), (true, [exDocB])] "k1" ∧
      (∀ b d, lastRoundWith "k1" [(false, [exDocA]), (true, [exDocB])] = some (b, [d]) →
        (∀ p ∈ coerceId d, stableValue p.2) →
        ∃ dd, FindByID unitGzip cf "k1" = .ok dd ∧ docEqv dd (coerceId d)) ∧
      FindByID unitGzip (openCollection unitGzip "users" cf.fileData false) "k1" =
        FindByID unitGzip cf "k1" :=
  claim2_last_commit_wins unitGzip unitGzip_lawful "users" false false
    [(false, [exDocA]), (true, [exDocB])] "k1" (by decide) (by decide) (by decide)

end FlyDB

open FlyDB
namespace FlyDB

theorem roundsFindSpec_batches (name : String) (rounds : List (Bool × List Document))
    (k : String) :
    roundsFindSpec name rounds k =
      match ((rounds.map Prod.snd).reverse.find?
          (fun bt => bt.any (fun d => renderId (coerceId d) == k))) with
      | none => .error .notFound
      | some bt => fromDecode (Decode (encodeBytes name (bt.map coerceId)) k) := by
  unfold roundsFindSpec lastRoundWith
  rw [show (rounds.map Prod.snd).reverse = rounds.reverse.map Prod.snd from
    (List.map_reverse _ _).symm]
  rw [List.find?_map]
  have hcomp : ((fun bt : List Document => bt.any (fun d => renderId (coerceId d) == k)) ∘
      Prod.snd) = (fun r : Bool × List Document =>
        r.2.any (fun d => renderId (coerceId d) == k)) := rfl
  rw [hcomp]
  match hf : rounds.reverse.find?
      (fun r => r.2.any (fun d => renderId (coerceId d) == k)) with
  | none => rw [hf]; rfl
  | some r => rw [hf]; rfl

/-- C5: commits with the compression flag toggled arbitrarily produce a file in which each block is individually raw or gzip-wrapped; `find` answers identically under any two flag assignments over the same batches (the per-block magic-byte sniff, not the current flag, selects decompression); and the recovery scan indexes every block of either form at its offset. -/
theorem claim5_per_block_compression (G : GzipModel) (hG : LawfulGzip G) (name : String)
    (flag0a flag0b : Bool) (flags1 flags2 : List Bool) (batches : List (List Document))
    (k : String)
    (hlen1 : flags1.length = batches.length)
    (hlen2 : flags2.length = batches.length)
    (hbs : ∀ bt ∈ batches, (∀ d ∈ bt, goodDoc d) ∧ bt.length < 2 ^ 63)
    (hname : goodName name) :
    ∃ c1 c2,
      runRounds G (flags1.zip batches) (newCollection name flag0a) = .ok c1 ∧
      runRounds G (flags2.zip batches) (newCollection name flag0b) = .ok c2 ∧
      (∀ b ∈ roundBlocks G name (flags1.zip batches), b.1 = b.2 ∨ b.1 = G.compress b.2) ∧
      c1.fileData = ((roundBlocks G name (flags1.zip batches)).map Prod.fst).flatten ∧
      FindByID G c1 k = FindByID G c2 k ∧
      loadIndex G c1.fileData =
        indexOfBlocks 0 (roundBlocks G name (flags1.zip batches)) [] := by
  have hwf1 : RoundsWf (flags1.zip batches) := by
    intro r hr
    exact hbs r.2 (List.of_mem_zip hr).2
  have hwf2 : RoundsWf (flags2.zip batches) := by
    intro r hr
    exact hbs r.2 (List.of_mem_zip hr).2
  obtain ⟨c1, hrun1, hnm1, hfile1, hidx1, hmem1, hcl1, hfind1⟩ :=
    FindByID_runRounds G hG name flag0a (flags1.zip batches) k hwf1 hname
  obtain ⟨c2, hrun2, hnm2, hfile2, hidx2, hmem2, hcl2, hfind2⟩ :=
    FindByID_runRounds G hG name flag0b (flags2.zip batches) k hwf2 hname
  have hfileB : c1.fileData = ((roundBlocks G name (flags1.zip batches)).map Prod.fst).flatten := by
    rw [hfile1, flatten_roundBytes_eq]
  refine ⟨c1, c2, hrun1, hrun2, ?_, hfileB, ?_, ?_⟩
  · intro b hb
    obtain ⟨docs, _, _, _, _, hW⟩ :=
      roundBlocks_wf G name (flags1.zip batches) hwf1 b hb
    exact hW
  · rw [hfind1, hfind2, roundsFindSpec_batches, roundsFindSpec_batches]
    rw [List.map_snd_zip flags1 batches (le_of_eq hlen1.symm),
      List.map_snd_zip flags2 batches (le_of_eq hlen2.symm)]
  · rw [hfileB]
    exact loadIndex_blocks G hG name hname (roundBlocks G name (flags1.zip batches))
      (roundBlocks_wf G name (flags1.zip batches) hwf1)

/-- C5, witness: two batches under keys `k1`, committed once with flags (raw, compressed) and once with flags (compressed, raw); the find results agree and the scan indexes both blocks. -/
theorem claim5_witness :
    ∃ c1 c2,
      runRounds unitGzip ([false, true].zip [[exDocA], [exDocB]])
        (newCollection "users" false) = .ok c1 ∧
      runRounds unitGzip ([true, false].zip [[exDocA], [exDocB]])
        (newCollection "users" true) = .ok c2 ∧
      (∀ b ∈ roundBlocks unitGzip "users" ([false, true].zip [[exDocA], [exDocB]]),
        b.1 = b.2 ∨ b.1 = unitGzip.compress b.2) ∧
      c1.fileData =
        ((roundBlocks unitGzip "users" ([false, true].zip [[exDocA], [exDocB]])).map
          Prod.fst).flatten ∧
      FindByID unitGzip c1 "k1" = FindByID unitGzip c2 "k1" ∧
      loadIndex unitGzip c1.fileData =
        indexOfBlocks 0 (roundBlocks unitGzip "users" ([false, true].zip [[exDocA], [exDocB]])) [] :=
  claim5_per_block_compression unitGzip unitGzip_lawful "users" false true
    [false, true] [true, false] [[exDocA], [exDocB]] "k1"
    (by decide) (by decide) (by decide) (by decide)

end FlyDB
